import Mathlib

/-!
Verification development for the fuzzy record-deduplication engine
(`build_duplicate_df` and its helpers in `test.py`).

The Python code is shallowly embedded:
* strings are Lean `String`s, handled at the character-list level; the
  character classes are modelled at ASCII granularity (Python's `str.lower`,
  `str.strip` and the regex classes `[^a-z0-9\s]`, `\s` agree with this model
  on ASCII input);
* a pandas `DataFrame` is a list of column names plus a list of rows, each row
  a list of string cells in column order (the upload layer reads every cell as
  text, `dtype=str, na_filter=False`), with the default 0-based range index;
* Python's `round` applied to the true quotient `s / n` of nonnegative
  integers is modelled as exact round-half-to-even (`pyRoundDiv`); the float
  division in the source is exact for the 1- and 2-element averages of the
  scorer, and agrees with the exact value for every realistically sized group;
* the external fuzzy similarity (`thefuzz.fuzz.token_set_ratio`) is an
  injected parameter `sim : String → String → Nat` of the engine, as the
  design notes describe it (a swappable scoring capability);
* each call to `uuid.uuid4()` draws the next element of an ambient stream
  `uids : Nat → String`; distinct invocations of the engine correspond to
  distinct streams;
* `raise ValueError` is `Except.error`.
-/

namespace DataCleanse

/-! ## Character-level model of the Python text operations -/

/-- The ASCII characters matched by Python's `\s` and stripped by
`str.strip()`. -/
def isPySpace (c : Char) : Bool :=
  c == ' ' || c == '\t' || c == '\n' || c == '\r' || c == '\x0b' || c == '\x0c'

/-- Characters kept unchanged by `re.sub(r"[^a-z0-9\s]", " ", ·)`. -/
def isKeepChar (c : Char) : Bool :=
  (decide ('a' ≤ c) && decide (c ≤ 'z')) ||
  (decide ('0' ≤ c) && decide (c ≤ '9')) ||
  isPySpace c

/-- `re.sub(r"[^a-z0-9\s]", " ", ·)`: every character outside the kept class
becomes a single space. -/
def subKeep (l : List Char) : List Char :=
  l.map (fun c => if isKeepChar c then c else ' ')

/-- Drop leading Python whitespace (`str.lstrip()`). -/
def lstrip (l : List Char) : List Char := l.dropWhile isPySpace

/-- Drop trailing Python whitespace (`str.rstrip()`). -/
def rstrip (l : List Char) : List Char := (l.reverse.dropWhile isPySpace).reverse

/-- `str.strip()`. -/
def pyStrip (l : List Char) : List Char := rstrip (lstrip l)

/-- `re.sub(r"\s+", " ", ·)`: each maximal run of whitespace becomes one
space.  (Structural recursion: a whitespace character is skipped while the
next character is also whitespace, and emitted as `' '` otherwise.) -/
def collapseWs : List Char → List Char
  | [] => []
  | c :: rest =>
    if isPySpace c then
      match rest with
      | [] => [' ']
      | d :: _ => if isPySpace d then collapseWs rest else ' ' :: collapseWs rest
    else c :: collapseWs rest

/-- The character-level pipeline of `normalize`: lower-case, strip, replace
characters outside `[a-z0-9\s]` with spaces, collapse whitespace runs, strip
again. -/
def normalizeChars (l : List Char) : List Char :=
  pyStrip (collapseWs (subKeep (pyStrip (l.map Char.toLower))))

/-- Python renders the argument with `str(...)` first; `None` renders as the
four-character string `"None"`. -/
def pyStr : Option String → String
  | none => "None"
  | some s => s

/-- `normalize(text)` from `test.py` (the argument is `str(...)`-rendered
first, so a `None` cell is the string `"None"`). -/
def normalize (t : Option String) : String :=
  String.mk (normalizeChars (pyStr t).data)

/-! ## The specification's reading of `normalize`

The specification describes the normalizer as: lower-case, replace every
character outside `{a-z, 0-9, whitespace}` with a space, then collapse
consecutive whitespace to single spaces and trim both ends.  The latter two
steps are expressed here in the equivalent split-into-words / rejoin form, so
that the equivalence with the source's strip/sub/collapse/strip chain is a
genuine theorem. -/

/-- The whitespace-separated words of a character list. -/
def wordsOf : List Char → List (List Char)
  | [] => []
  | c :: rest =>
    if isPySpace c then wordsOf rest
    else (c :: rest.takeWhile (fun d => !isPySpace d)) ::
      wordsOf (rest.dropWhile (fun d => !isPySpace d))
termination_by l => l.length
decreasing_by
  · simp only [List.length_cons]; omega
  · simp only [List.length_cons]
    exact Nat.lt_succ_of_le (List.Sublist.length_le (List.dropWhile_sublist _))

/-- Join words with single spaces. -/
def joinWords : List (List Char) → List Char
  | [] => []
  | [w] => w
  | w :: ws => w ++ ' ' :: joinWords ws

/-- The normalizer as the specification words it: lower-case, replace
non-alphanumeric-non-space characters by spaces, and rebuild the string from
its whitespace-separated words joined by single spaces (which performs the
collapse of duplicate whitespace and the trimming of both ends). -/
def specNormalize (s : String) : String :=
  String.mk (joinWords (wordsOf (subKeep (s.data.map Char.toLower))))

/-! ## Python integer rounding of an exact quotient -/

/-- Python's `round(s / n)` for nonnegative integers `s`, `n`: round the exact
quotient half to even.  (The source divides IEEE floats; the two quantities
agree for the scorer's 1- and 2-element means, whose quotients are exactly
representable, and for any group average whose denominator is below `10^13`.) -/
def pyRoundDiv (s n : Nat) : Nat :=
  let q := s / n
  let r := s % n
  if 2 * r < n then q
  else if n < 2 * r then q + 1
  else if q % 2 = 0 then q else q + 1

/-- Python float division `s / n` of two nonnegative integers, as an exact
rational (used only for the `avg_block_size` statistic). -/
def pyAvg (s n : Nat) : ℚ := (s : ℚ) / (n : ℚ)

/-! ## Data model -/

/-- `DeduplicationColumnMap`: each logical field optionally names a column of
the uploaded table. -/
structure DeduplicationColumnMap where
  customer_name : Option String := none
  address : Option String := none
  city : Option String := none
  country : Option String := none
  tpi : Option String := none
deriving DecidableEq

/-- `DuplicateRecordDetail`: one accepted pairwise match, referencing the
candidate record. -/
structure DuplicateRecordDetail where
  Row : Nat
  Name : Option String
  Address : Option String
  Name_score : Option Nat
  Addr_score : Option Nat
  Overall_score : Nat
  IsLowConfidence : Bool
  LLM_conf : Option ℚ
  uid : String
deriving DecidableEq

/-- An entry of `master_records_dict` before finalization. -/
structure MasterData where
  MasterRow : Nat
  MasterName : Option String
  MasterAddress : Option String
  Duplicates : List DuplicateRecordDetail
  master_uid : String
deriving DecidableEq

/-- A finalized master group (one element of `masters_list` /
`results_df`). -/
structure MasterRecord where
  MasterRow : Nat
  MasterName : Option String
  MasterAddress : Option String
  DuplicateCount : Nat
  AvgSimilarity : Nat
  IsLowConfidenceGroup : Bool
  Duplicates : List DuplicateRecordDetail
  master_uid : String
deriving DecidableEq

/-- The `block_stats` dictionary. -/
structure BlockStats where
  total_blocks : Nat
  max_block_size : Nat
  avg_block_size : ℚ
  records_in_blocks : Nat
deriving DecidableEq

/-- The input table: column names plus rows of text cells in column order,
indexed 0-based by position (pandas default range index). -/
structure DataFrame where
  cols : List String
  rows : List (List String)
deriving DecidableEq

/-- Cell lookup by column label (`row[c]` through the frame's columns). -/
def dfCell (cols : List String) (row : List String) (c : String) : String :=
  match cols.findIdx? (fun x => x == c) with
  | some i => row.getD i ""
  | none => ""

/-- `col_map.model_dump().values()` without the `None`s, in field order. -/
def mappedCols (cm : DeduplicationColumnMap) : List String :=
  [cm.customer_name, cm.address, cm.city, cm.country, cm.tpi].filterMap id

/-- Python truthiness of an optional string (`None` and `""` are falsy). -/
def pyTruthy : Option String → Bool
  | none => false
  | some s => s != ""

/-- One row of the working frame `work`: the selected cells, the preserved
original index `ExcelRow`, and the four cached normalized fields. -/
structure WorkRow where
  cells : List (String × String)
  ExcelRow : Nat
  customer_name_norm : String
  address_norm : String
  city_norm : String
  country_norm : String
deriving DecidableEq, Inhabited

/-- `work[f"{lf}_norm"]`: the normalized value of a mapped logical field, or
`""` when the field is unmapped (or maps to a falsy/unselected column name).
A mapped column shadowed by one of the derived column names is modelled as
reading the original table cell. -/
def normFieldVal (oc : Option String) (sel : List String)
    (cols : List String) (row : List String) : String :=
  match oc with
  | some c => if c != "" && sel.contains c then normalize (some (dfCell cols row c)) else ""
  | none => ""

/-- Build one row of `work` from the table row at original index `i`. -/
def mkWorkRow (cols : List String) (cm : DeduplicationColumnMap)
    (sel : List String) (i : Nat) (row : List String) : WorkRow :=
  { cells := sel.map (fun c => (c, dfCell cols row c))
    ExcelRow := i
    customer_name_norm := normFieldVal cm.customer_name sel cols row
    address_norm := normFieldVal cm.address sel cols row
    city_norm := normFieldVal cm.city sel cols row
    country_norm := normFieldVal cm.country sel cols row }

/-- Build `work` from the rows, numbering them from `i`. -/
def buildWorkAux (cols : List String) (cm : DeduplicationColumnMap)
    (sel : List String) : Nat → List (List String) → List WorkRow
  | _, [] => []
  | i, row :: rest => mkWorkRow cols cm sel i row :: buildWorkAux cols cm sel (i + 1) rest

/-- The working frame `work` (selected columns, `ExcelRow`, normalized
fields). -/
def buildWork (df : DataFrame) (cm : DeduplicationColumnMap)
    (sel : List String) : List WorkRow :=
  buildWorkAux df.cols cm sel 0 df.rows

/-- Label lookup in a `work` row.  The derived columns (`*_norm`, `ExcelRow`)
were assigned after the selection and therefore shadow a selected column of
the same name. -/
def workCell (r : WorkRow) (c : String) : Option String :=
  if c == "customer_name_norm" then some r.customer_name_norm
  else if c == "address_norm" then some r.address_norm
  else if c == "city_norm" then some r.city_norm
  else if c == "country_norm" then some r.country_norm
  else if c == "ExcelRow" then some (toString r.ExcelRow)
  else (r.cells.find? (fun e => e.1 == c)).map (fun e => e.2)

/-! ## Blocking -/

/-- The block key of a record: first 4 characters of the normalized name (or
the sentinel `"xxxx"` when no name column is mapped or the normalized name is
empty), `"_"`, and the first character of the normalized city (or the sentinel
`"y"` when no city column is mapped or the normalized city is empty).
`pd.notna` is identically true on the string-valued normalized columns and is
dropped. -/
def blockKey (cm : DeduplicationColumnMap) (r : WorkRow) : String :=
  let namePfx := if cm.customer_name.isSome
    then String.mk (r.customer_name_norm.data.take 4) else "xxxx"
  let cityPfx := if cm.city.isSome && r.city_norm != ""
    then String.mk (r.city_norm.data.take 1) else "y"
  let namePfx := if namePfx == "" then "xxxx" else namePfx
  namePfx ++ "_" ++ cityPfx

/-- `blocks.setdefault(key, []).append(i)` on an insertion-ordered
association list. -/
def addToBlock (bs : List (String × List Nat)) (k : String) (i : Nat) :
    List (String × List Nat) :=
  match bs with
  | [] => [(k, [i])]
  | (k₀, l₀) :: rest =>
    if k₀ == k then (k₀, l₀ ++ [i]) :: rest else (k₀, l₀) :: addToBlock rest k i

/-- The blocking index: every `work` row is appended to the bucket of its
block key, in row order (`i` is the row's original index `ExcelRow`). -/
def buildBlocks (cm : DeduplicationColumnMap) (work : List WorkRow) :
    List (String × List Nat) :=
  work.foldl (fun bs r => addToBlock bs (blockKey cm r) r.ExcelRow) []

/-- The `block_stats` dictionary computed right after blocking. -/
def mkBlockStats (blocks : List (String × List Nat)) : BlockStats :=
  { total_blocks := blocks.length
    max_block_size := if blocks.isEmpty then 0 else (blocks.map (fun b => b.2.length)).foldl max 0
    avg_block_size := if blocks.isEmpty then 0 else pyAvg (blocks.map (fun b => b.2.length)).sum blocks.length
    records_in_blocks := (blocks.map (fun b => b.2.length)).sum }

/-- `itertools.combinations(l, 2)` in iteration order. -/
def combinations2 : List α → List (α × α)
  | [] => []
  | x :: xs => xs.map (fun y => (x, y)) ++ combinations2 xs

/-- All intra-block pairs in evaluation order (blocks of fewer than two
records are skipped). -/
def allPairs (blocks : List (String × List Nat)) : List (Nat × Nat) :=
  (blocks.map (fun b => if b.2.length < 2 then [] else combinations2 b.2)).flatten

/-! ## Pairwise scoring -/

/-- `neo_token_set_ratio`: `0` when either side is missing, otherwise the
injected token-set similarity of the two strings. -/
def neoTokenSetSim (sim : String → String → Nat) : Option String → Option String → Nat
  | none, _ => 0
  | _, none => 0
  | some a, some b => sim a b

/-- `name_s`: computed only when the name column is mapped (truthy) and
present in both rows of the pair, `0` otherwise. -/
def pairNameScore (sim : String → String → Nat) (cm : DeduplicationColumnMap)
    (r1 r2 : WorkRow) : Nat :=
  match cm.customer_name with
  | some c =>
    if c != "" && (workCell r1 c).isSome && (workCell r2 c).isSome
    then neoTokenSetSim sim (workCell r1 c) (workCell r2 c) else 0
  | none => 0

/-- `addr_s`, analogously for the address column. -/
def pairAddrScore (sim : String → String → Nat) (cm : DeduplicationColumnMap)
    (r1 r2 : WorkRow) : Nat :=
  match cm.address with
  | some c =>
    if c != "" && (workCell r1 c).isSome && (workCell r2 c).isSome
    then neoTokenSetSim sim (workCell r1 c) (workCell r2 c) else 0
  | none => 0

/-- `scores_present`: the name score if a name column is mapped, then the
address score if an address column is mapped. -/
def scoresPresent (cm : DeduplicationColumnMap) (name_s addr_s : Nat) : List Nat :=
  (if pyTruthy cm.customer_name then [name_s] else []) ++
  (if pyTruthy cm.address then [addr_s] else [])

/-- `overall = round(sum(scores_present) / len(scores_present))`, `0` when no
field is mapped. -/
def pairOverall (cm : DeduplicationColumnMap) (name_s addr_s : Nat) : Nat :=
  let sp := scoresPresent cm name_s addr_s
  if sp.isEmpty then 0 else pyRoundDiv sp.sum sp.length

/-- `str(r[c])` guarded by `col_map.field and col_map.field in r`. -/
def displayField (oc : Option String) (r : WorkRow) : Option String :=
  match oc with
  | some c => if c != "" && (workCell r c).isSome then workCell r c else none
  | none => none

/-- The `dup_detail` dictionary of an accepted pair (`r2` is the candidate
side; `IsLowConfidence` is `overall < 90`; `uid` is the freshly drawn
identifier). -/
def mkDup (cm : DeduplicationColumnMap) (r2 : WorkRow)
    (name_s addr_s overall : Nat) (uid : String) : DuplicateRecordDetail :=
  { Row := r2.ExcelRow + 2
    Name := displayField cm.customer_name r2
    Address := displayField cm.address r2
    Name_score := if pyTruthy cm.customer_name then some name_s else none
    Addr_score := if pyTruthy cm.address then some addr_s else none
    Overall_score := overall
    IsLowConfidence := decide (overall < 90)
    LLM_conf := none
    uid := uid }

/-! ## Group building -/

/-- A fresh entry of `master_records_dict` (duplicate list still empty). -/
def mkMasterSeed (cm : DeduplicationColumnMap) (r1 : WorkRow) (muid : String) :
    MasterData :=
  { MasterRow := r1.ExcelRow + 2
    MasterName := displayField cm.customer_name r1
    MasterAddress := displayField cm.address r1
    Duplicates := []
    master_uid := muid }

/-- Append a duplicate to the entry keyed `key` (first occurrence). -/
def appendDup (ms : List (Nat × MasterData)) (key : Nat)
    (d : DuplicateRecordDetail) : List (Nat × MasterData) :=
  match ms with
  | [] => []
  | (k₀, m₀) :: rest =>
    if k₀ == key then (k₀, { m₀ with Duplicates := m₀.Duplicates ++ [d] }) :: rest
    else (k₀, m₀) :: appendDup rest key d

/-- The mutable accumulator of the group builder: the insertion-ordered
`master_records_dict` plus the number of identifiers drawn so far. -/
abbrev MState := List (Nat × MasterData) × Nat

/-- Insert an accepted duplicate under the anchor `r1`: create the master
entry (drawing a fresh identifier) if its row key is unseen, then append the
duplicate to it. -/
def insertDup (uids : Nat → String) (cm : DeduplicationColumnMap)
    (r1 : WorkRow) (dup : DuplicateRecordDetail) (st : MState) : MState :=
  let key := r1.ExcelRow + 2
  let st' :=
    if st.1.any (fun e => e.1 == key) then st
    else (st.1 ++ [(key, mkMasterSeed cm r1 (uids st.2))], st.2 + 1)
  (appendDup st'.1 key dup, st'.2)

/-- Evaluate one intra-block pair `(i1, i2)` of original indices: reject on
the name gate (`name_s < 70` with a name column mapped) or on the overall
floor (`overall < 70`), otherwise build the duplicate detail (drawing a fresh
identifier) and fold it into the accumulator. -/
def processPair (sim : String → String → Nat) (uids : Nat → String)
    (cm : DeduplicationColumnMap) (work : List WorkRow) (st : MState)
    (p : Nat × Nat) : MState :=
  let r1 := work.getD p.1 default
  let r2 := work.getD p.2 default
  let name_s := pairNameScore sim cm r1 r2
  if pyTruthy cm.customer_name && decide (name_s < 70) then st
  else
    let addr_s := pairAddrScore sim cm r1 r2
    let overall := pairOverall cm name_s addr_s
    if overall < 70 then st
    else
      let dup := mkDup cm r2 name_s addr_s overall (uids st.2)
      insertDup uids cm r1 dup (st.1, st.2 + 1)

/-- `round(sum(sims) / len(sims))`, `0` for an empty list. -/
def avgScore (sims : List Nat) : Nat :=
  if sims.isEmpty then 0 else pyRoundDiv sims.sum sims.length

/-- Finalize one master group. -/
def finalizeMaster (m : MasterData) : MasterRecord :=
  { MasterRow := m.MasterRow
    MasterName := m.MasterName
    MasterAddress := m.MasterAddress
    DuplicateCount := m.Duplicates.length
    AvgSimilarity := avgScore (m.Duplicates.map (fun d => d.Overall_score))
    IsLowConfidenceGroup := m.Duplicates.any (fun d => d.IsLowConfidence)
    Duplicates := m.Duplicates
    master_uid := m.master_uid }

/-- Insert into a list sorted by `AvgSimilarity` descending, keeping equal
keys in their existing order. -/
def insertDesc (m : MasterRecord) : List MasterRecord → List MasterRecord
  | [] => [m]
  | x :: xs => if x.AvgSimilarity < m.AvgSimilarity then m :: x :: xs else x :: insertDesc m xs

/-- `results_df.sort_values("AvgSimilarity", ascending=False)`, as a
deterministic stable sort. -/
def sortMasters (ms : List MasterRecord) : List MasterRecord :=
  ms.foldr insertDesc []

/-! ## The engine -/

/-- `build_duplicate_df(df, col_map)`: validate the mapping, build the
working frame, block, score every intra-block pair, fold accepted pairs into
master groups, finalize and sort.  `sim` is the injected token-set similarity
and `uids` the ambient stream of fresh identifiers. -/
def build_duplicate_df (sim : String → String → Nat) (uids : Nat → String)
    (df : DataFrame) (cm : DeduplicationColumnMap) :
    Except String (List MasterRecord × BlockStats) :=
  match (mappedCols cm).find? (fun c => !(df.cols.contains c)) with
  | some c => .error ("Mapped column " ++ c ++ " not found in the uploaded file.")
  | none =>
    let sel := (mappedCols cm).filter (fun c => df.cols.contains c)
    if sel.isEmpty then
      .error "No valid columns were mapped or found in the uploaded file for deduplication."
    else
      let work := buildWork df cm sel
      let blocks := buildBlocks cm work
      let stats := mkBlockStats blocks
      let st := (allPairs blocks).foldl (processPair sim uids cm work) ([], 0)
      let masters := sortMasters ((st.1.map (fun e => e.2)).map finalizeMaster)
      .ok (masters, stats)

/-! ## Auxiliary definitions for the proofs -/

/-- Each word prefixed by one separating space (the tail of a join). -/
def preJoin : List (List Char) → List Char
  | [] => []
  | w :: ws => (' ' :: w) ++ preJoin ws

/-- Total number of duplicate details accumulated in a group-builder state. -/
def dupCount (ms : List (Nat × MasterData)) : Nat :=
  (ms.map (fun e => e.2.Duplicates.length)).sum

/-- Erase the freshly drawn identifier of a duplicate detail. -/
def eraseDupUid (d : DuplicateRecordDetail) : DuplicateRecordDetail :=
  { d with uid := "" }

/-- Erase the freshly drawn identifiers of an accumulator entry. -/
def eraseMDUid (m : MasterData) : MasterData :=
  { m with master_uid := "", Duplicates := m.Duplicates.map eraseDupUid }

/-- Erase the freshly drawn identifiers of a finalized master group. -/
def eraseMRUid (m : MasterRecord) : MasterRecord :=
  { m with master_uid := "", Duplicates := m.Duplicates.map eraseDupUid }

/-- Erase the freshly drawn identifiers of a keyed accumulator entry. -/
def eraseEntryUid (e : Nat × MasterData) : Nat × MasterData :=
  (e.1, eraseMDUid e.2)

/-- Erase every freshly drawn identifier of an engine result. -/
def eraseResultUids (r : Except String (List MasterRecord × BlockStats)) :
    Except String (List MasterRecord × BlockStats) :=
  r.map (fun p => (p.1.map eraseMRUid, p.2))

/-- The block-key construction exactly as the claim words it: the first 4
characters of the (non-empty) normalized name when a name column is mapped,
else `"xxxx"`; an underscore; the first character of the (non-empty)
normalized city when a city column is mapped, else `"y"`. -/
def claimBlockKey (cm : DeduplicationColumnMap) (r : WorkRow) : String :=
  (if cm.customer_name.isSome && r.customer_name_norm != ""
   then String.mk (r.customer_name_norm.data.take 4) else "xxxx") ++ "_" ++
  (if cm.city.isSome && r.city_norm != "" then String.mk (r.city_norm.data.take 1) else "y")

/-- Equality of engine results is decidable (no claim-relevant field is
noncomputable). -/
instance : DecidableEq (Except String (List MasterRecord × BlockStats)) :=
  fun a b => match a, b with
  | .ok x, .ok y => if h : x = y then .isTrue (by rw [h]) else .isFalse (by simp [h])
  | .error x, .error y => if h : x = y then .isTrue (by rw [h]) else .isFalse (by simp [h])
  | .ok _, .error _ => .isFalse (by simp)
  | .error _, .ok _ => .isFalse (by simp)

/-! ## Concrete inputs used by witnesses and counterexamples -/

/-- A degenerate injected similarity: `100` on equal strings, `0` otherwise. -/
def simEq : String → String → Nat := fun a b => if a == b then 100 else 0

/-- A constant injected similarity of `89`. -/
def sim89 : String → String → Nat := fun _ _ => 89

/-- One ambient identifier stream. -/
def uidsW : Nat → String := fun n => toString n

/-- A different ambient identifier stream (a later invocation). -/
def uidsB : Nat → String := fun n => toString (n + 7)

/-- A two-row table whose name cells are identical. -/
def dfW : DataFrame := { cols := ["n"], rows := [["acme corp"], ["acme corp"]] }

/-- Mapping only the name field, to column `"n"`. -/
def cmW : DeduplicationColumnMap := { customer_name := some "n" }

/-- The duplicate detail produced on `dfW` with `simEq` and `uidsW`. -/
def dupW : DuplicateRecordDetail :=
  { Row := 3, Name := some "acme corp", Address := none,
    Name_score := some 100, Addr_score := none, Overall_score := 100,
    IsLowConfidence := false, LLM_conf := none, uid := "0" }

/-- The master group produced on `dfW` with `simEq` and `uidsW`. -/
def mrW : MasterRecord :=
  { MasterRow := 2, MasterName := some "acme corp", MasterAddress := none,
    DuplicateCount := 1, AvgSimilarity := 100, IsLowConfidenceGroup := false,
    Duplicates := [dupW], master_uid := "1" }

/-- The block statistics of the `dfW` run (one block of two records). -/
def bsW : BlockStats :=
  { total_blocks := 1, max_block_size := 2, avg_block_size := pyAvg 2 1,
    records_in_blocks := 2 }

/-- The duplicate detail of the `dfW` run under the constant similarity
`sim89` (overall score 89, hence low-confidence). -/
def dup89 : DuplicateRecordDetail :=
  { Row := 3, Name := some "acme corp", Address := none,
    Name_score := some 89, Addr_score := none, Overall_score := 89,
    IsLowConfidence := true, LLM_conf := none, uid := "0" }

/-- The master group of the `dfW` run under `sim89`. -/
def mr89 : MasterRecord :=
  { MasterRow := 2, MasterName := some "acme corp", MasterAddress := none,
    DuplicateCount := 1, AvgSimilarity := 89, IsLowConfidenceGroup := true,
    Duplicates := [dup89], master_uid := "1" }

/-- A table with no rows (but a column). -/
def dfEmpty : DataFrame := { cols := ["a"], rows := [] }

/-- Mapping only the name field, to column `"a"`. -/
def cmA : DeduplicationColumnMap := { customer_name := some "a" }

/-- Two records sharing the name prefix `abcd` (same block) whose name
similarity is below the name floor while the address similarity is `100`. -/
def dfC3 : DataFrame :=
  { cols := ["n", "a"], rows := [["abcd x", "p"], ["abcd y", "q"]] }

/-- Name and address both mapped, for `dfC3`. -/
def cmC3 : DeduplicationColumnMap := { customer_name := some "n", address := some "a" }

/-- Similarity giving the `dfC3` pair a name score of 40 and an address score
of 100 (rounded overall score 70). -/
def simC3 : String → String → Nat := fun s t =>
  if s == "abcd x" && t == "abcd y" then 40
  else if s == "p" && t == "q" then 100 else 0

/-- The working frame of the `dfC3` run. -/
def workC3 : List WorkRow := buildWork dfC3 cmC3 (mappedCols cmC3)

/-- The working frame of the `dfW` run. -/
def workW : List WorkRow := buildWork dfW cmW (mappedCols cmW)

/-- A constant injected similarity of exactly the overall floor. -/
def sim70 : String → String → Nat := fun _ _ => 70

/-- A similarity giving the `dfC3` pair a name score of 70 (the gate passes)
and an address score of 40, hence a rounded overall score of 55. -/
def simB : String → String → Nat := fun s _ => if s == "abcd x" then 70 else 40

/-! ## Named engine stages (the values of the `let`s of `build_duplicate_df`,
for stating invariants) -/

/-- `cols_to_select`. -/
def engineSel (df : DataFrame) (cm : DeduplicationColumnMap) : List String :=
  (mappedCols cm).filter (fun c => df.cols.contains c)

/-- The working frame built by the engine. -/
def engineWork (df : DataFrame) (cm : DeduplicationColumnMap) : List WorkRow :=
  buildWork df cm (engineSel df cm)

/-- The blocking index built by the engine. -/
def engineBlocks (df : DataFrame) (cm : DeduplicationColumnMap) :
    List (String × List Nat) :=
  buildBlocks cm (engineWork df cm)

/-- The final group-builder state of the engine. -/
def engineState (sim : String → String → Nat) (uids : Nat → String)
    (df : DataFrame) (cm : DeduplicationColumnMap) : MState :=
  (allPairs (engineBlocks df cm)).foldl
    (processPair sim uids cm (engineWork df cm)) ([], 0)

/-- All indices distributed into blocks, in block order. -/
def blockElems (bs : List (String × List Nat)) : List Nat :=
  (bs.map (fun e => e.2)).flatten

/-! # Claims -/

/-- C5: if every logical field in the column mapping is absent, the engine
fails with a `ValueError` (here `Except.error`) and, the result being an
error, returns no groups and no block statistics. -/
theorem c5_no_fields_mapped_error (sim : String → String → Nat)
    (uids : Nat → String) (df : DataFrame) :
    build_duplicate_df sim uids df {} =
      Except.error
        "No valid columns were mapped or found in the uploaded file for deduplication." :=
  rfl

/-- C4, counterexample: on a zero-row table with no mapped column at all
(so that, vacuously, every mapped column name exists in the table) the engine
fails instead of returning the empty result the claim asserts. -/
theorem c4_counterexample :
    dfEmpty.rows = [] ∧ mappedCols ({} : DeduplicationColumnMap) = [] ∧
    build_duplicate_df simEq uidsW dfEmpty {} =
      Except.error
        "No valid columns were mapped or found in the uploaded file for deduplication." :=
  ⟨rfl, rfl, rfl⟩

/-- C4, amended: if the table has zero rows, at least one logical field is
mapped, and every mapped column name exists in the table, the engine does not
fail: it returns an empty group list and zero-valued block statistics. -/
theorem c4_empty_table_ok (sim : String → String → Nat) (uids : Nat → String)
    (df : DataFrame) (cm : DeduplicationColumnMap)
    (hrows : df.rows = []) (hmap : mappedCols cm ≠ [])
    (hcols : ∀ c ∈ mappedCols cm, df.cols.contains c = true) :
    build_duplicate_df sim uids df cm =
      .ok ([], { total_blocks := 0, max_block_size := 0, avg_block_size := 0,
                 records_in_blocks := 0 }) := by
  have h1 : (mappedCols cm).find? (fun c => !(df.cols.contains c)) = none := by
    rw [List.find?_eq_none]
    intro x hx
    simpa using hcols x hx
  have h2 : (mappedCols cm).filter (fun c => df.cols.contains c) = mappedCols cm :=
    List.filter_eq_self.mpr hcols
  have h3 : (mappedCols cm).isEmpty = false := by
    cases hcm : mappedCols cm with
    | nil => exact absurd hcm hmap
    | cons a l => rfl
  unfold build_duplicate_df
  rw [h1, h2]
  simp [h3, buildWork, hrows, buildWorkAux, buildBlocks, mkBlockStats, allPairs,
    sortMasters]

/-- C4, witness: the amended statement at a concrete zero-row table. -/
theorem c4_witness :
    mappedCols cmA ≠ [] ∧ dfEmpty.rows = [] ∧
    build_duplicate_df simEq uidsW dfEmpty cmA =
      .ok ([], { total_blocks := 0, max_block_size := 0, avg_block_size := 0,
                 records_in_blocks := 0 }) :=
  ⟨by decide, rfl, c4_empty_table_ok simEq uidsW dfEmpty cmA rfl (by decide) (by decide)⟩

/-- C2, counterexample: a missing (`None`) input is rendered by `str(...)`
first, so it normalizes to `"none"`, not to the empty string. -/
theorem c2_counterexample : normalize none = "none" ∧ normalize none ≠ "" := by
  decide

/-! ### Equivalence of the normalizer with its specification reading -/

theorem subKeep_all_space (u : List Char) (hu : ∀ c ∈ u, isPySpace c = true) :
    subKeep u = u := by
  unfold subKeep
  have h : ∀ c ∈ u, (if isKeepChar c then c else ' ') = id c := by
    intro c hc
    have hk : isKeepChar c = true := by simp [isKeepChar, hu c hc]
    simp [hk]
  rw [List.map_congr_left h, List.map_id]

theorem wordsOf_nil : wordsOf ([] : List Char) = [] := by
  rw [wordsOf]

theorem wordsOf_cons_space (c : Char) (rest : List Char) (hc : isPySpace c = true) :
    wordsOf (c :: rest) = wordsOf rest := by
  rw [wordsOf, if_pos hc]

theorem wordsOf_cons_not_space (c : Char) (rest : List Char) (hc : isPySpace c = false) :
    wordsOf (c :: rest) =
      (c :: rest.takeWhile (fun d => !isPySpace d)) ::
        wordsOf (rest.dropWhile (fun d => !isPySpace d)) := by
  rw [wordsOf, if_neg (by simp [hc])]

theorem wordsOf_all_space : ∀ (u : List Char), (∀ c ∈ u, isPySpace c = true) →
    wordsOf u = [] := by
  intro u
  induction u with
  | nil => intro _; exact wordsOf_nil
  | cons a u ih =>
    intro hu
    rw [wordsOf_cons_space a u (hu a (List.mem_cons_self a u))]
    exact ih (fun c hc => hu c (List.mem_cons_of_mem a hc))

theorem wordsOf_space_append : ∀ (u x : List Char),
    (∀ c ∈ u, isPySpace c = true) → wordsOf (u ++ x) = wordsOf x := by
  intro u
  induction u with
  | nil => intro x _; rfl
  | cons a u ih =>
    intro x hu
    rw [List.cons_append, wordsOf_cons_space a _ (hu a (List.mem_cons_self a u))]
    exact ih x (fun c hc => hu c (List.mem_cons_of_mem a hc))

theorem takeWhile_not_space_all_space (u : List Char)
    (hu : ∀ c ∈ u, isPySpace c = true) :
    u.takeWhile (fun d => !isPySpace d) = [] := by
  cases u with
  | nil => rfl
  | cons b u' =>
    rw [List.takeWhile_cons, if_neg (by simp [hu b (List.mem_cons_self b u')])]

theorem dropWhile_not_space_all_space (u : List Char)
    (hu : ∀ c ∈ u, isPySpace c = true) :
    u.dropWhile (fun d => !isPySpace d) = u := by
  cases u with
  | nil => rfl
  | cons b u' =>
    rw [List.dropWhile_cons, if_neg (by simp [hu b (List.mem_cons_self b u')])]

theorem wordsOf_dropWhile_space (l : List Char) :
    wordsOf (l.dropWhile isPySpace) = wordsOf l := by
  conv_rhs => rw [← List.takeWhile_append_dropWhile isPySpace l]
  exact (wordsOf_space_append _ _ (fun c hc => List.mem_takeWhile_imp hc)).symm

theorem dropWhile_append_pos {p : α → Bool} (x u : List α) (h : x.dropWhile p ≠ []) :
    (x ++ u).dropWhile p = x.dropWhile p ++ u := by
  rw [List.dropWhile_append, if_neg]
  simp [List.isEmpty_iff, h]

theorem dropWhile_append_nil {p : α → Bool} (x u : List α) (h : x.dropWhile p = []) :
    (x ++ u).dropWhile p = u.dropWhile p := by
  rw [List.dropWhile_append, if_pos]
  simp [List.isEmpty_iff, h]

theorem takeWhile_append_pos {p : α → Bool} :
    ∀ (x u : List α), x.dropWhile p ≠ [] → (x ++ u).takeWhile p = x.takeWhile p := by
  intro x
  induction x with
  | nil => intro u h; simp at h
  | cons a x ih =>
    intro u h
    by_cases hp : p a
    · rw [List.cons_append, List.takeWhile_cons, if_pos hp, List.takeWhile_cons, if_pos hp]
      rw [List.dropWhile_cons, if_pos hp] at h
      rw [ih u h]
    · rw [List.cons_append, List.takeWhile_cons, if_neg hp, List.takeWhile_cons, if_neg hp]

theorem takeWhile_append_nil {p : α → Bool} :
    ∀ (x u : List α), x.dropWhile p = [] → (x ++ u).takeWhile p = x ++ u.takeWhile p := by
  intro x
  induction x with
  | nil => intro u _; rfl
  | cons a x ih =>
    intro u h
    rw [List.dropWhile_cons] at h
    by_cases hp : p a
    · rw [if_pos hp] at h
      rw [List.cons_append, List.takeWhile_cons, if_pos hp, ih u h, List.cons_append]
    · rw [if_neg hp] at h
      exact absurd h (by simp)

theorem dropWhile_head_false {p : α → Bool} :
    ∀ (l : List α) (a : α) (t : List α), l.dropWhile p = a :: t → p a = false := by
  intro l
  induction l with
  | nil => intro a t h; simp at h
  | cons b l ih =>
    intro a t h
    rw [List.dropWhile_cons] at h
    by_cases hp : p b
    · rw [if_pos hp] at h
      exact ih a t h
    · rw [if_neg hp] at h
      cases h
      simpa using hp

theorem wordsOf_append_space_aux : ∀ (n : Nat) (x u : List Char), x.length ≤ n →
    (∀ c ∈ u, isPySpace c = true) → wordsOf (x ++ u) = wordsOf x := by
  intro n
  induction n with
  | zero =>
    intro x u hx hu
    have : x = [] := List.length_eq_zero.mp (Nat.le_zero.mp hx)
    subst this
    rw [List.nil_append, wordsOf_nil, wordsOf_all_space u hu]
  | succ n ih =>
    intro x u hx hu
    match x with
    | [] =>
      rw [List.nil_append, wordsOf_nil, wordsOf_all_space u hu]
    | a :: x' =>
      have hlen : x'.length ≤ n := by simpa using hx
      by_cases ha : isPySpace a
      · rw [List.cons_append, wordsOf_cons_space a _ ha, wordsOf_cons_space a _ ha]
        exact ih x' u hlen hu
      · have ha' : isPySpace a = false := by simpa using ha
        rw [List.cons_append, wordsOf_cons_not_space a _ ha', wordsOf_cons_not_space a _ ha']
        by_cases hz : x'.dropWhile (fun d => !isPySpace d) = []
        · rw [takeWhile_append_nil x' u hz, dropWhile_append_nil x' u hz]
          rw [takeWhile_not_space_all_space u hu, dropWhile_not_space_all_space u hu]
          rw [List.append_nil, hz, wordsOf_nil, wordsOf_all_space u hu,
            List.takeWhile_eq_self_iff.mpr (List.dropWhile_eq_nil_iff.mp hz)]
        · rw [takeWhile_append_pos x' u hz, dropWhile_append_pos x' u hz]
          have hsub : (x'.dropWhile (fun d => !isPySpace d)).length ≤ n :=
            le_trans (List.Sublist.length_le (List.dropWhile_sublist _)) hlen
          rw [ih _ u hsub hu]

theorem wordsOf_append_space (x u : List Char) (hu : ∀ c ∈ u, isPySpace c = true) :
    wordsOf (x ++ u) = wordsOf x :=
  wordsOf_append_space_aux x.length x u le_rfl hu

theorem collapseWs_cons_space : ∀ (rest : List Char) (c : Char), isPySpace c = true →
    collapseWs (c :: rest) = ' ' :: collapseWs (rest.dropWhile isPySpace) := by
  intro rest
  induction rest with
  | nil => intro c hc; simp [collapseWs, hc]
  | cons d r' ih =>
    intro c hc
    by_cases hd : isPySpace d
    · rw [show collapseWs (c :: d :: r') = collapseWs (d :: r') by simp [collapseWs, hc, hd]]
      rw [ih d hd, List.dropWhile_cons, if_pos hd]
    · rw [show collapseWs (c :: d :: r') = ' ' :: collapseWs (d :: r') by
        simp [collapseWs, hc, hd]]
      rw [List.dropWhile_cons, if_neg hd]

theorem collapseWs_cons_not_space (c : Char) (rest : List Char)
    (hc : isPySpace c = false) : collapseWs (c :: rest) = c :: collapseWs rest := by
  cases rest <;> simp [collapseWs, hc]

theorem rstrip_cons_not_space (c : Char) (y : List Char) (hc : isPySpace c = false) :
    rstrip (c :: y) = c :: rstrip y := by
  unfold rstrip
  rw [List.reverse_cons, List.dropWhile_append]
  by_cases he : (y.reverse.dropWhile isPySpace).isEmpty
  · rw [if_pos he, List.dropWhile_cons, if_neg (by simp [hc])]
    rw [List.isEmpty_iff.mp he]
    rfl
  · rw [if_neg he, List.reverse_append, List.reverse_singleton, List.singleton_append]

theorem rstrip_cons_of_ne_nil (c : Char) (y : List Char) (h : rstrip y ≠ []) :
    rstrip (c :: y) = c :: rstrip y := by
  unfold rstrip
  have he : (y.reverse.dropWhile isPySpace).isEmpty = false := by
    rw [Bool.eq_false_iff]
    intro hcon
    exact h (by unfold rstrip; rw [List.isEmpty_iff.mp hcon]; rfl)
  rw [List.reverse_cons, List.dropWhile_append, he]
  rw [if_neg (by simp), List.reverse_append, List.reverse_singleton, List.singleton_append]

theorem joinWords_cons (w : List Char) : ∀ (ws : List (List Char)),
    joinWords (w :: ws) = w ++ preJoin ws := by
  intro ws
  induction ws generalizing w with
  | nil => simp [joinWords, preJoin]
  | cons w' ws' ih =>
    rw [show joinWords (w :: w' :: ws') = w ++ ' ' :: joinWords (w' :: ws') from rfl]
    rw [ih w', show preJoin (w' :: ws') = (' ' :: w') ++ preJoin ws' from rfl]
    simp

/-- The central equivalence: right-stripping the whitespace-collapsed list is
the word list with each word preceded by one space, after the leading
non-space run. -/
theorem rstrip_collapseWs : ∀ (n : Nat) (l : List Char), l.length ≤ n →
    rstrip (collapseWs l) =
      l.takeWhile (fun c => !isPySpace c) ++
        preJoin (wordsOf (l.dropWhile (fun c => !isPySpace c))) := by
  intro n
  induction n with
  | zero =>
    intro l hl
    have : l = [] := List.length_eq_zero.mp (Nat.le_zero.mp hl)
    subst this
    simp [rstrip, collapseWs, wordsOf_nil, preJoin]
  | succ n ih =>
    intro l hl
    match l with
    | [] => simp [rstrip, collapseWs, wordsOf_nil, preJoin]
    | c :: rest =>
      have hlen : rest.length ≤ n := by simpa using hl
      by_cases hc : isPySpace c
      · -- leading whitespace: the collapsed list starts with a single space
        rw [collapseWs_cons_space rest c hc]
        rw [List.takeWhile_cons, if_neg (by simp [hc]), List.dropWhile_cons,
          if_neg (by simp [hc]), List.nil_append]
        rw [wordsOf_cons_space c rest hc, ← wordsOf_dropWhile_space rest]
        set d := rest.dropWhile isPySpace with hd
        have hdlen : d.length ≤ n :=
          le_trans (List.Sublist.length_le (List.dropWhile_sublist _)) hlen
        match hdd : d, hdlen with
        | [], _ => rw [wordsOf_nil]; rfl
        | e :: d', hdlen =>
          have hesp : isPySpace e = false := dropWhile_head_false rest e d' hd.symm
          have hne : rstrip (e :: collapseWs d') ≠ [] := by
            rw [rstrip_cons_not_space e _ hesp]
            simp
          rw [collapseWs_cons_not_space e _ hesp]
          rw [rstrip_cons_of_ne_nil ' ' _ hne]
          rw [show rstrip (e :: collapseWs d') = rstrip (collapseWs (e :: d')) by
            rw [collapseWs_cons_not_space e _ hesp]]
          rw [ih (e :: d') hdlen]
          rw [wordsOf_cons_not_space e d' hesp]
          rw [List.takeWhile_cons, if_pos (by simp [hesp]), List.dropWhile_cons,
            if_pos (by simp [hesp])]
          rw [show preJoin ((e :: List.takeWhile (fun d => !isPySpace d) d') ::
            wordsOf (List.dropWhile (fun d => !isPySpace d) d')) =
            (' ' :: e :: List.takeWhile (fun d => !isPySpace d) d') ++
              preJoin (wordsOf (List.dropWhile (fun d => !isPySpace d) d')) from rfl]
          simp
      · have hc' : isPySpace c = false := by simpa using hc
        rw [collapseWs_cons_not_space c rest hc', rstrip_cons_not_space c _ hc']
        rw [ih rest hlen]
        rw [List.takeWhile_cons, if_pos (by simp [hc']), List.dropWhile_cons,
          if_pos (by simp [hc'])]
        simp

/-- Right-stripping a collapsed list headed by a non-space character yields
the joined word list. -/
theorem rstrip_collapse_head (e : Char) (d' : List Char) (he : isPySpace e = false) :
    rstrip (e :: collapseWs d') = joinWords (wordsOf (e :: d')) := by
  rw [rstrip_cons_not_space e _ he, rstrip_collapseWs d'.length d' le_rfl,
    wordsOf_cons_not_space e d' he, joinWords_cons]
  simp

/-- Strip-after-collapse is exactly join-of-words. -/
theorem pyStrip_collapseWs (l : List Char) :
    pyStrip (collapseWs l) = joinWords (wordsOf l) := by
  match l with
  | [] => rw [wordsOf_nil]; rfl
  | c :: rest =>
    by_cases hc : isPySpace c
    · rw [collapseWs_cons_space rest c hc]
      unfold pyStrip lstrip
      rw [List.dropWhile_cons, if_pos (show isPySpace ' ' = true by decide)]
      rw [wordsOf_cons_space c rest hc, ← wordsOf_dropWhile_space rest]
      set d := rest.dropWhile isPySpace with hd
      match hdd : d with
      | [] => rw [wordsOf_nil]; rfl
      | e :: d' =>
        have hesp : isPySpace e = false := dropWhile_head_false rest e d' hd.symm
        rw [collapseWs_cons_not_space e _ hesp]
        rw [List.dropWhile_cons, if_neg (by simp [hesp])]
        exact rstrip_collapse_head e d' hesp
    · have hc' : isPySpace c = false := by simpa using hc
      rw [collapseWs_cons_not_space c rest hc']
      unfold pyStrip lstrip
      rw [List.dropWhile_cons, if_neg (by simp [hc'])]
      exact rstrip_collapse_head c rest hc'

theorem subKeep_append (x y : List Char) : subKeep (x ++ y) = subKeep x ++ subKeep y :=
  List.map_append _ x y

/-- The first strip of the source pipeline is invisible to the word
decomposition (the replacement map fixes whitespace characters). -/
theorem wordsOf_subKeep_pyStrip (m : List Char) :
    wordsOf (subKeep (pyStrip m)) = wordsOf (subKeep m) := by
  have h1 : ∀ c ∈ m.takeWhile isPySpace, isPySpace c = true :=
    fun c hc => List.mem_takeWhile_imp hc
  have hA : wordsOf (subKeep m) = wordsOf (subKeep (lstrip m)) := by
    calc wordsOf (subKeep m)
        = wordsOf (subKeep (m.takeWhile isPySpace ++ m.dropWhile isPySpace)) := by
          rw [List.takeWhile_append_dropWhile]
      _ = wordsOf (m.takeWhile isPySpace ++ subKeep (m.dropWhile isPySpace)) := by
          rw [subKeep_append, subKeep_all_space _ h1]
      _ = wordsOf (subKeep (lstrip m)) := wordsOf_space_append _ _ h1
  have hw : lstrip m = rstrip (lstrip m) ++ ((lstrip m).reverse.takeWhile isPySpace).reverse := by
    conv_lhs => rw [← List.reverse_reverse (lstrip m),
      ← List.takeWhile_append_dropWhile isPySpace (lstrip m).reverse]
    rw [List.reverse_append]
    rfl
  have h2 : ∀ c ∈ ((lstrip m).reverse.takeWhile isPySpace).reverse, isPySpace c = true :=
    fun c hc => List.mem_takeWhile_imp (List.mem_reverse.mp hc)
  calc wordsOf (subKeep (pyStrip m))
      = wordsOf (subKeep (rstrip (lstrip m))) := rfl
    _ = wordsOf (subKeep (rstrip (lstrip m)) ++
          ((lstrip m).reverse.takeWhile isPySpace).reverse) :=
        (wordsOf_append_space _ _ h2).symm
    _ = wordsOf (subKeep (rstrip (lstrip m)) ++
          subKeep (((lstrip m).reverse.takeWhile isPySpace).reverse)) := by
        rw [subKeep_all_space _ h2]
    _ = wordsOf (subKeep (rstrip (lstrip m) ++
          ((lstrip m).reverse.takeWhile isPySpace).reverse)) := by
        rw [subKeep_append]
    _ = wordsOf (subKeep (lstrip m)) := by rw [← hw]
    _ = wordsOf (subKeep m) := hA.symm

/-- C2, amended: on every string input, `normalize` lower-cases, replaces
every character outside lowercase letters, digits and whitespace with a
space, collapses whitespace runs to single spaces, and trims — exactly the
specified transformation (stated as the equivalent split/join form); an empty
input yields the empty string (the instance `s = ""`); but a missing (`None`)
input yields `"none"`, not the empty string. -/
theorem c2_normalize_spec :
    (∀ s : String, normalize (some s) = specNormalize s) ∧ normalize none = "none" := by
  constructor
  · intro s
    show String.mk (normalizeChars s.data) = specNormalize s
    unfold normalizeChars specNormalize
    rw [pyStrip_collapseWs, wordsOf_subKeep_pyStrip]
  · decide

/-! ### Group-builder bookkeeping lemmas -/

theorem dupCount_append (a b : List (Nat × MasterData)) :
    dupCount (a ++ b) = dupCount a + dupCount b := by
  unfold dupCount
  rw [List.map_append, List.sum_append]

theorem appendDup_of_not_mem : ∀ (ms : List (Nat × MasterData)) (key : Nat)
    (d : DuplicateRecordDetail), ms.any (fun e => e.1 == key) = false →
    appendDup ms key d = ms := by
  intro ms
  induction ms with
  | nil => intro key d _; rfl
  | cons e ms ih =>
    intro key d h
    rw [List.any_cons] at h
    rcases Bool.or_eq_false_iff.mp h with ⟨h1, h2⟩
    match e with
    | (k₀, m₀) =>
      rw [appendDup, if_neg (by simpa using h1)]
      rw [ih key d h2]

theorem appendDup_dupCount : ∀ (ms : List (Nat × MasterData)) (key : Nat)
    (d : DuplicateRecordDetail), ms.any (fun e => e.1 == key) = true →
    dupCount (appendDup ms key d) = dupCount ms + 1 := by
  intro ms
  induction ms with
  | nil => intro key d h; simp at h
  | cons e ms ih =>
    intro key d h
    match e with
    | (k₀, m₀) =>
      by_cases hk : k₀ == key
      · rw [appendDup, if_pos hk]
        show dupCount ((k₀, { m₀ with Duplicates := m₀.Duplicates ++ [d] }) :: ms) = _
        unfold dupCount
        simp
        omega
      · rw [appendDup, if_neg hk]
        rw [List.any_cons] at h
        have h2 : ms.any (fun e => e.1 == key) = true := by
          rcases Bool.or_eq_true_iff.mp h with h1 | h2
          · exact absurd h1 (by simpa using hk)
          · exact h2
        show dupCount ((k₀, m₀) :: appendDup ms key d) = dupCount ((k₀, m₀) :: ms) + 1
        unfold dupCount
        simp only [List.map_cons, List.sum_cons]
        rw [show ((appendDup ms key d).map (fun e => e.2.Duplicates.length)).sum =
          dupCount (appendDup ms key d) from rfl,
          show (ms.map (fun e => e.2.Duplicates.length)).sum = dupCount ms from rfl,
          ih key d h2]
        omega

theorem appendDup_append_of_not_mem : ∀ (ms : List (Nat × MasterData)) (key : Nat)
    (m : MasterData) (d : DuplicateRecordDetail),
    ms.any (fun e => e.1 == key) = false →
    appendDup (ms ++ [(key, m)]) key d =
      ms ++ [(key, { m with Duplicates := m.Duplicates ++ [d] })] := by
  intro ms
  induction ms with
  | nil =>
    intro key m d _
    rw [List.nil_append, appendDup, if_pos (by simp)]
    rfl
  | cons e ms ih =>
    intro key m d h
    rw [List.any_cons] at h
    rcases Bool.or_eq_false_iff.mp h with ⟨h1, h2⟩
    match e with
    | (k₀, m₀) =>
      rw [List.cons_append, appendDup, if_neg (by simpa using h1), ih key m d h2,
        List.cons_append]

theorem insertDup_dupCount (uids : Nat → String) (cm : DeduplicationColumnMap)
    (r1 : WorkRow) (dup : DuplicateRecordDetail) (st : MState) :
    dupCount (insertDup uids cm r1 dup st).1 = dupCount st.1 + 1 := by
  show dupCount (appendDup
      (if (st.1.any fun e => e.1 == r1.ExcelRow + 2) = true then st
       else (st.1 ++ [(r1.ExcelRow + 2, mkMasterSeed cm r1 (uids st.2))], st.2 + 1)).1
      (r1.ExcelRow + 2) dup) = dupCount st.1 + 1
  by_cases h : st.1.any (fun e => e.1 == r1.ExcelRow + 2)
  · rw [if_pos h]
    exact appendDup_dupCount st.1 _ dup h
  · have h' : st.1.any (fun e => e.1 == r1.ExcelRow + 2) = false :=
      Bool.eq_false_iff.mpr h
    rw [if_neg h]
    show dupCount (appendDup (st.1 ++ [(r1.ExcelRow + 2, mkMasterSeed cm r1 (uids st.2))])
      (r1.ExcelRow + 2) dup) = dupCount st.1 + 1
    rw [appendDup_append_of_not_mem st.1 _ _ dup h', dupCount_append]
    simp [mkMasterSeed, dupCount]

/-- C3, amended: a pair evaluated within a block that passes the name-gate
(`name_s ≥ 70` whenever a name column is mapped) is accepted — exactly one
`DuplicateRecordDetail` is added — precisely when its rounded overall score
reaches the overall floor of 70; with overall score 69 or lower the
accumulator is left untouched.  (As stated in the claim, with overall score
70 but a name score below the name floor, the pair is nevertheless rejected:
see the counterexample.) -/
theorem c3_accept_iff_overall_floor (sim : String → String → Nat)
    (uids : Nat → String) (cm : DeduplicationColumnMap) (work : List WorkRow)
    (st : MState) (p : Nat × Nat)
    (hgate : ¬(pyTruthy cm.customer_name = true ∧
      pairNameScore sim cm (work.getD p.1 default) (work.getD p.2 default) < 70)) :
    (pairOverall cm (pairNameScore sim cm (work.getD p.1 default) (work.getD p.2 default))
        (pairAddrScore sim cm (work.getD p.1 default) (work.getD p.2 default)) < 70 →
      processPair sim uids cm work st p = st) ∧
    (70 ≤ pairOverall cm (pairNameScore sim cm (work.getD p.1 default) (work.getD p.2 default))
        (pairAddrScore sim cm (work.getD p.1 default) (work.getD p.2 default)) →
      dupCount (processPair sim uids cm work st p).1 = dupCount st.1 + 1) := by
  have hcond : (pyTruthy cm.customer_name &&
      decide (pairNameScore sim cm (work.getD p.1 default) (work.getD p.2 default) < 70)) =
      false := by
    rw [Bool.and_eq_false_iff]
    by_cases ht : pyTruthy cm.customer_name = true
    · right
      have h := not_and.mp hgate ht
      simpa using h
    · left
      simpa using ht
  have hred : processPair sim uids cm work st p =
      (if pairOverall cm (pairNameScore sim cm (work.getD p.1 default) (work.getD p.2 default))
            (pairAddrScore sim cm (work.getD p.1 default) (work.getD p.2 default)) < 70 then st
       else insertDup uids cm (work.getD p.1 default)
         (mkDup cm (work.getD p.2 default)
           (pairNameScore sim cm (work.getD p.1 default) (work.getD p.2 default))
           (pairAddrScore sim cm (work.getD p.1 default) (work.getD p.2 default))
           (pairOverall cm (pairNameScore sim cm (work.getD p.1 default) (work.getD p.2 default))
             (pairAddrScore sim cm (work.getD p.1 default) (work.getD p.2 default)))
           (uids st.2)) (st.1, st.2 + 1)) := by
    unfold processPair
    simp only [hcond, Bool.false_eq_true, if_false]
  rw [hred]
  constructor
  · intro hlt
    rw [if_pos hlt]
  · intro hge
    rw [if_neg (by omega)]
    exact insertDup_dupCount uids cm _ _ _

/-- C3, counterexample: two records of the same block whose name score is 40
and address score is 100 have rounded overall score exactly 70, yet the pair
is rejected by the name gate: the engine returns no group at all. -/
theorem c3_counterexample :
    blockKey cmC3 (workC3.getD 0 default) = blockKey cmC3 (workC3.getD 1 default) ∧
    allPairs (buildBlocks cmC3 workC3) = [(0, 1)] ∧
    pairNameScore simC3 cmC3 (workC3.getD 0 default) (workC3.getD 1 default) = 40 ∧
    pairAddrScore simC3 cmC3 (workC3.getD 0 default) (workC3.getD 1 default) = 100 ∧
    pairOverall cmC3 40 100 = 70 ∧
    build_duplicate_df simC3 uidsW dfC3 cmC3 =
      .ok ([], { total_blocks := 1, max_block_size := 2, avg_block_size := pyAvg 2 1,
                 records_in_blocks := 2 }) :=
  ⟨by decide, by decide, by decide, by decide, by decide, rfl⟩

/-- C3, witness: with a constant similarity of 70 the `dfW` pair is accepted
(one detail added); on the `dfC3` pair with name score 70 and address score
40 (overall 55) the state is unchanged. -/
theorem c3_witness :
    pairOverall cmW (pairNameScore sim70 cmW (workW.getD 0 default) (workW.getD 1 default))
      (pairAddrScore sim70 cmW (workW.getD 0 default) (workW.getD 1 default)) = 70 ∧
    dupCount (processPair sim70 uidsW cmW workW ([], 0) (0, 1)).1 =
      dupCount (([], 0) : MState).1 + 1 ∧
    pairOverall cmC3 (pairNameScore simB cmC3 (workC3.getD 0 default) (workC3.getD 1 default))
      (pairAddrScore simB cmC3 (workC3.getD 0 default) (workC3.getD 1 default)) = 55 ∧
    processPair simB uidsW cmC3 workC3 ([], 0) (0, 1) = ([], 0) :=
  ⟨by decide,
   (c3_accept_iff_overall_floor sim70 uidsW cmW workW ([], 0) (0, 1) (by decide)).2 (by decide),
   by decide,
   (c3_accept_iff_overall_floor simB uidsW cmC3 workC3 ([], 0) (0, 1) (by decide)).1 (by decide)⟩

/-! ### Structure of the working frame -/

theorem buildWorkAux_map_excelRow (cols : List String) (cm : DeduplicationColumnMap)
    (sel : List String) : ∀ (rows : List (List String)) (i : Nat),
    (buildWorkAux cols cm sel i rows).map (fun r => r.ExcelRow) =
      List.range' i rows.length := by
  intro rows
  induction rows with
  | nil => intro i; rfl
  | cons row rest ih =>
    intro i
    rw [buildWorkAux, List.map_cons, ih (i + 1), List.length_cons, List.range'_succ]
    rfl

theorem work_map_excelRow (df : DataFrame) (cm : DeduplicationColumnMap) :
    (engineWork df cm).map (fun r => r.ExcelRow) = List.range (engineWork df cm).length := by
  unfold engineWork buildWork
  rw [buildWorkAux_map_excelRow, List.range_eq_range']
  congr 1
  have h := buildWorkAux_map_excelRow df.cols cm (engineSel df cm) df.rows 0
  have := congrArg List.length h
  simpa using this.symm

theorem buildWorkAux_length (cols : List String) (cm : DeduplicationColumnMap)
    (sel : List String) : ∀ (rows : List (List String)) (i : Nat),
    (buildWorkAux cols cm sel i rows).length = rows.length := by
  intro rows
  induction rows with
  | nil => intro i; rfl
  | cons row rest ih =>
    intro i
    rw [buildWorkAux, List.length_cons, ih (i + 1), List.length_cons]

theorem buildWorkAux_getD_excelRow (cols : List String) (cm : DeduplicationColumnMap)
    (sel : List String) : ∀ (rows : List (List String)) (i k : Nat), k < rows.length →
    ((buildWorkAux cols cm sel i rows).getD k default).ExcelRow = i + k := by
  intro rows
  induction rows with
  | nil => intro i k hk; simp at hk
  | cons row rest ih =>
    intro i k hk
    cases k with
    | zero => rfl
    | succ k =>
      rw [buildWorkAux, List.getD_cons_succ, ih (i + 1) k (by simpa using hk)]
      omega

/-- The indices at positions of the working frame. -/
theorem work_getD_excelRow_at (df : DataFrame) (cm : DeduplicationColumnMap)
    (k : Nat) (hk : k < (engineWork df cm).length) :
    ((engineWork df cm).getD k default).ExcelRow = k := by
  have hk' : k < df.rows.length := by
    rw [show (engineWork df cm).length =
      (buildWorkAux df.cols cm (engineSel df cm) 0 df.rows).length from rfl,
      buildWorkAux_length] at hk
    exact hk
  have h := buildWorkAux_getD_excelRow df.cols cm (engineSel df cm) df.rows 0 k hk'
  rw [show (engineWork df cm).getD k default =
    (buildWorkAux df.cols cm (engineSel df cm) 0 df.rows).getD k default from rfl, h]
  omega

/-- Every row of the working frame sits at the position its `ExcelRow` names. -/
theorem work_getD_excelRow (df : DataFrame) (cm : DeduplicationColumnMap)
    (r : WorkRow) (hr : r ∈ engineWork df cm) :
    r.ExcelRow < (engineWork df cm).length ∧
      (engineWork df cm).getD r.ExcelRow default = r := by
  obtain ⟨k, hk, hget⟩ := List.mem_iff_getElem.mp hr
  have h1 : ((engineWork df cm).getD k default).ExcelRow = k :=
    work_getD_excelRow_at df cm k hk
  have h2 : (engineWork df cm).getD k default = r := by
    rw [List.getD_eq_getElem _ _ hk, hget]
  have hkr : r.ExcelRow = k := by rw [← h2]; exact h1
  constructor
  · rw [hkr]; exact hk
  · rw [hkr]; exact h2

/-! ### Structure of the blocking index -/

theorem addToBlock_count (j : Nat) : ∀ (bs : List (String × List Nat)) (k : String) (i : Nat),
    (blockElems (addToBlock bs k i)).count j =
      (blockElems bs).count j + ([i].count j) := by
  intro bs
  induction bs with
  | nil =>
    intro k i
    simp [addToBlock, blockElems]
  | cons e bs ih =>
    intro k i
    match e with
    | (k₀, l₀) =>
      by_cases hk : k₀ == k
      · rw [addToBlock, if_pos hk]
        show ((l₀ ++ [i]) ++ blockElems bs).count j = (l₀ ++ blockElems bs).count j + _
        simp [List.count_append, List.count_cons]
        omega
      · rw [addToBlock, if_neg hk]
        show (l₀ ++ blockElems (addToBlock bs k i)).count j =
          (l₀ ++ blockElems bs).count j + _
        rw [List.count_append, List.count_append, ih k i]
        omega

theorem addToBlock_mem : ∀ (bs : List (String × List Nat)) (k : String) (i : Nat)
    (e : String × List Nat), e ∈ addToBlock bs k i →
    e ∈ bs ∨ (e.1 = k ∧ e.2 = [i]) ∨
      ∃ l₀, (k, l₀) ∈ bs ∧ e.1 = k ∧ e.2 = l₀ ++ [i] := by
  intro bs
  induction bs with
  | nil =>
    intro k i e he
    rw [addToBlock] at he
    rcases List.mem_singleton.mp he with rfl
    right; left; exact ⟨rfl, rfl⟩
  | cons e₀ bs ih =>
    intro k i e he
    match e₀ with
    | (k₀, l₀) =>
      by_cases hk : k₀ == k
      · rw [addToBlock, if_pos hk] at he
        have hk' : k₀ = k := by simpa using hk
        rcases List.mem_cons.mp he with rfl | hmem
        · right; right
          exact ⟨l₀, by rw [← hk']; exact List.mem_cons_self _ _, hk', rfl⟩
        · left; exact List.mem_cons_of_mem _ hmem
      · rw [addToBlock, if_neg hk] at he
        rcases List.mem_cons.mp he with rfl | hmem
        · left; exact List.mem_cons_self _ _
        · rcases ih k i e hmem with h | h | ⟨l₁, hl₁, h2, h3⟩
          · left; exact List.mem_cons_of_mem _ h
          · right; left; exact h
          · right; right; exact ⟨l₁, List.mem_cons_of_mem _ hl₁, h2, h3⟩

/-- The blocking fold preserves, entry by entry: every stored index is a
valid position whose row matches the entry key, and every stored list is
strictly increasing. -/
theorem foldBlocks_inv (cm : DeduplicationColumnMap) (work : List WorkRow) :
    ∀ (rs : List WorkRow) (bs : List (String × List Nat)),
    (∀ r ∈ rs, r ∈ work) →
    (∀ r ∈ work, r.ExcelRow < work.length ∧ work.getD r.ExcelRow default = r) →
    (∀ e ∈ bs, ∀ j ∈ e.2, j < work.length ∧ (work.getD j default).ExcelRow = j ∧
      blockKey cm (work.getD j default) = e.1) →
    (∀ e ∈ bs, e.2.Pairwise (· < ·)) →
    (∀ e ∈ bs, ∀ j ∈ e.2, ∀ r ∈ rs, j < r.ExcelRow) →
    rs.Pairwise (fun a b => a.ExcelRow < b.ExcelRow) →
    ∀ e ∈ rs.foldl (fun bs r => addToBlock bs (blockKey cm r) r.ExcelRow) bs,
      (∀ j ∈ e.2, j < work.length ∧ (work.getD j default).ExcelRow = j ∧
        blockKey cm (work.getD j default) = e.1) ∧ e.2.Pairwise (· < ·) := by
  intro rs
  induction rs with
  | nil =>
    intro bs _ _ hbs hbs2 _ _ e he
    exact ⟨hbs e he, hbs2 e he⟩
  | cons r rs' ih =>
    intro bs hrs H hbs hbs2 hcross hord
    rw [List.foldl_cons]
    have hrw : r ∈ work := hrs r (List.mem_cons_self r rs')
    obtain ⟨hrn, hrg⟩ := H r hrw
    -- facts about the single appended index
    have hsingle : ∀ j, j = r.ExcelRow →
        j < work.length ∧ (work.getD j default).ExcelRow = j ∧
        blockKey cm (work.getD j default) = blockKey cm r := by
      intro j hj
      subst hj
      refine ⟨hrn, ?_, ?_⟩
      · rw [hrg]
      · rw [hrg]
    apply ih (addToBlock bs (blockKey cm r) r.ExcelRow)
    · intro r' hr'
      exact hrs r' (List.mem_cons_of_mem r hr')
    · exact H
    · -- per-element facts survive addToBlock
      intro e he j hj
      rcases addToBlock_mem bs (blockKey cm r) r.ExcelRow e he with hold | ⟨h1, h2⟩ | ⟨l₀, hl₀, h1, h2⟩
      · exact hbs e hold j hj
      · rw [h2] at hj
        rcases List.mem_singleton.mp hj with rfl
        rw [h1]
        exact hsingle _ rfl
      · rw [h2] at hj
        rcases List.mem_append.mp hj with hjl | hji
        · have := hbs (blockKey cm r, l₀) hl₀ j hjl
          rw [h1]
          exact this
        · rcases List.mem_singleton.mp hji with rfl
          rw [h1]
          exact hsingle _ rfl
    · -- strict increase survives addToBlock
      intro e he
      rcases addToBlock_mem bs (blockKey cm r) r.ExcelRow e he with hold | ⟨h1, h2⟩ | ⟨l₀, hl₀, h1, h2⟩
      · exact hbs2 e hold
      · rw [h2]
        exact List.pairwise_singleton _ _
      · rw [h2]
        rw [List.pairwise_append]
        refine ⟨hbs2 (blockKey cm r, l₀) hl₀, List.pairwise_singleton _ _, ?_⟩
        intro a ha b hb
        rcases List.mem_singleton.mp hb with rfl
        exact hcross (blockKey cm r, l₀) hl₀ a ha r (List.mem_cons_self r rs')
    · -- cross bound: all stored indices stay below all upcoming rows
      intro e he j hj r' hr'
      have hrr' : r.ExcelRow < r'.ExcelRow := by
        have := (List.pairwise_cons.mp hord).1
        exact this r' hr'
      rcases addToBlock_mem bs (blockKey cm r) r.ExcelRow e he with hold | ⟨h1, h2⟩ | ⟨l₀, hl₀, h1, h2⟩
      · exact hcross e hold j hj r' (List.mem_cons_of_mem r hr')
      · rw [h2] at hj
        rcases List.mem_singleton.mp hj with rfl
        exact hrr'
      · rw [h2] at hj
        rcases List.mem_append.mp hj with hjl | hji
        · exact hcross (blockKey cm r, l₀) hl₀ j hjl r' (List.mem_cons_of_mem r hr')
        · rcases List.mem_singleton.mp hji with rfl
          exact hrr'
    · exact (List.pairwise_cons.mp hord).2

/-- The engine's blocking index: every entry holds valid, strictly increasing
positions whose rows carry the entry's key. -/
theorem engineBlocks_inv (df : DataFrame) (cm : DeduplicationColumnMap) :
    ∀ e ∈ engineBlocks df cm,
      (∀ j ∈ e.2, j < (engineWork df cm).length ∧
        ((engineWork df cm).getD j default).ExcelRow = j ∧
        blockKey cm ((engineWork df cm).getD j default) = e.1) ∧
      e.2.Pairwise (· < ·) := by
  have hord : (engineWork df cm).Pairwise (fun a b => a.ExcelRow < b.ExcelRow) := by
    have h := List.pairwise_lt_range (engineWork df cm).length
    rw [← work_map_excelRow df cm] at h
    exact (List.pairwise_map.mp h)
  exact foldBlocks_inv cm (engineWork df cm) (engineWork df cm) []
    (fun r hr => hr) (fun r hr => work_getD_excelRow df cm r hr)
    (fun e he => absurd he (List.not_mem_nil e))
    (fun e he => absurd he (List.not_mem_nil e))
    (fun e he => absurd he (List.not_mem_nil e))
    hord

theorem foldBlocks_count (cm : DeduplicationColumnMap) (j : Nat) :
    ∀ (rs : List WorkRow) (bs : List (String × List Nat)),
    (blockElems (rs.foldl (fun bs r => addToBlock bs (blockKey cm r) r.ExcelRow) bs)).count j
      = (blockElems bs).count j + (rs.map (fun r => r.ExcelRow)).count j := by
  intro rs
  induction rs with
  | nil => intro bs; simp
  | cons r rs' ih =>
    intro bs
    rw [List.foldl_cons, ih, addToBlock_count j bs (blockKey cm r) r.ExcelRow]
    rw [List.map_cons, List.count_cons]
    simp [List.count_cons]
    omega

/-- Every valid position is distributed into the blocks exactly once. -/
theorem engineBlocks_count (df : DataFrame) (cm : DeduplicationColumnMap)
    (j : Nat) (hj : j < (engineWork df cm).length) :
    (blockElems (engineBlocks df cm)).count j = 1 := by
  unfold engineBlocks buildBlocks
  rw [foldBlocks_count cm j (engineWork df cm) []]
  rw [work_map_excelRow df cm]
  have h1 : (blockElems []).count j = 0 := rfl
  rw [h1, List.count_eq_one_of_mem (List.nodup_range _) (List.mem_range.mpr hj)]

theorem string_take_ne_empty (s : String) (h : s ≠ "") (k : Nat) (hk : 0 < k) :
    String.mk (s.data.take k) ≠ "" := by
  intro hcon
  apply h
  cases s with
  | mk data =>
    cases data with
    | nil => rfl
    | cons a l =>
      cases k with
      | zero => omega
      | succ k =>
        have hdata : a :: List.take k l = ([] : List Char) := congrArg String.data hcon
        exact absurd hdata (by simp)

/-- The engine's block key agrees with the claim's description of it. -/
theorem blockKey_eq_claim (cm : DeduplicationColumnMap) (r : WorkRow) :
    blockKey cm r = claimBlockKey cm r := by
  unfold blockKey claimBlockKey
  by_cases hn : cm.customer_name.isSome
  · by_cases he : r.customer_name_norm = ""
    · rw [he]
      simp [hn]
    · have h4 := string_take_ne_empty r.customer_name_norm he 4 (by omega)
      simp [hn, he, h4]
  · simp [hn]

/-- C6: the block key of every record is `name_prefix ++ "_" ++ city_prefix`
with the sentinels and the unpadded short prefixes exactly as claimed, and
within the engine every record position is distributed into exactly one
block, the one keyed by its own block key. -/
theorem c6_blocking (df : DataFrame) (cm : DeduplicationColumnMap) :
    (∀ r : WorkRow, blockKey cm r = claimBlockKey cm r) ∧
    (∀ j, j < (engineWork df cm).length →
      (blockElems (engineBlocks df cm)).count j = 1 ∧
      (∀ e ∈ engineBlocks df cm, j ∈ e.2 →
        e.1 = blockKey cm ((engineWork df cm).getD j default))) := by
  refine ⟨fun r => blockKey_eq_claim cm r, fun j hj => ⟨engineBlocks_count df cm j hj, ?_⟩⟩
  intro e he hjm
  exact ((engineBlocks_inv df cm e he).1 j hjm).2.2.symm

/-- C6, witness: the two-row table `dfW` has one block containing position 0
exactly once. -/
theorem c6_witness :
    blockKey cmW (workW.getD 0 default) = claimBlockKey cmW (workW.getD 0 default) ∧
    0 < (engineWork dfW cmW).length ∧
    (blockElems (engineBlocks dfW cmW)).count 0 = 1 :=
  ⟨(c6_blocking dfW cmW).1 _, by decide, ((c6_blocking dfW cmW).2 0 (by decide)).1⟩

/-! ### From evaluated pairs to the returned groups -/

/-- `processPair` with its local bindings substituted. -/
theorem processPair_def (sim : String → String → Nat) (uids : Nat → String)
    (cm : DeduplicationColumnMap) (work : List WorkRow) (st : MState) (p : Nat × Nat) :
    processPair sim uids cm work st p =
      (if (pyTruthy cm.customer_name && decide
            (pairNameScore sim cm (work.getD p.1 default) (work.getD p.2 default) < 70)) = true
       then st
       else if pairOverall cm
            (pairNameScore sim cm (work.getD p.1 default) (work.getD p.2 default))
            (pairAddrScore sim cm (work.getD p.1 default) (work.getD p.2 default)) < 70
       then st
       else insertDup uids cm (work.getD p.1 default)
         (mkDup cm (work.getD p.2 default)
           (pairNameScore sim cm (work.getD p.1 default) (work.getD p.2 default))
           (pairAddrScore sim cm (work.getD p.1 default) (work.getD p.2 default))
           (pairOverall cm
             (pairNameScore sim cm (work.getD p.1 default) (work.getD p.2 default))
             (pairAddrScore sim cm (work.getD p.1 default) (work.getD p.2 default)))
           (uids st.2)) (st.1, st.2 + 1)) := rfl

/-- Each evaluated pair leaves the accumulator unchanged or folds in the
canonical duplicate detail of the pair. -/
theorem processPair_eq (sim : String → String → Nat) (uids : Nat → String)
    (cm : DeduplicationColumnMap) (work : List WorkRow) (st : MState) (p : Nat × Nat) :
    processPair sim uids cm work st p = st ∨
    processPair sim uids cm work st p =
      insertDup uids cm (work.getD p.1 default)
        (mkDup cm (work.getD p.2 default)
          (pairNameScore sim cm (work.getD p.1 default) (work.getD p.2 default))
          (pairAddrScore sim cm (work.getD p.1 default) (work.getD p.2 default))
          (pairOverall cm
            (pairNameScore sim cm (work.getD p.1 default) (work.getD p.2 default))
            (pairAddrScore sim cm (work.getD p.1 default) (work.getD p.2 default)))
          (uids st.2)) (st.1, st.2 + 1) := by
  rw [processPair_def]
  by_cases h1 : (pyTruthy cm.customer_name && decide
      (pairNameScore sim cm (work.getD p.1 default) (work.getD p.2 default) < 70)) = true
  · left; rw [if_pos h1]
  · rw [if_neg h1]
    by_cases h2 : pairOverall cm
        (pairNameScore sim cm (work.getD p.1 default) (work.getD p.2 default))
        (pairAddrScore sim cm (work.getD p.1 default) (work.getD p.2 default)) < 70
    · left; rw [if_pos h2]
    · right; rw [if_neg h2]

theorem appendDup_mem : ∀ (ms : List (Nat × MasterData)) (key : Nat)
    (d : DuplicateRecordDetail) (e : Nat × MasterData), e ∈ appendDup ms key d →
    e ∈ ms ∨ ∃ m, (key, m) ∈ ms ∧
      e = (key, { m with Duplicates := m.Duplicates ++ [d] }) := by
  intro ms
  induction ms with
  | nil => intro key d e he; exact absurd he (List.not_mem_nil e)
  | cons e₀ ms ih =>
    intro key d e he
    match e₀ with
    | (k₀, m₀) =>
      by_cases hk : k₀ == key
      · rw [appendDup, if_pos hk] at he
        have hk' : k₀ = key := by simpa using hk
        rcases List.mem_cons.mp he with rfl | hmem
        · right
          exact ⟨m₀, by rw [← hk']; exact List.mem_cons_self _ _, by rw [hk']⟩
        · left; exact List.mem_cons_of_mem _ hmem
      · rw [appendDup, if_neg hk] at he
        rcases List.mem_cons.mp he with rfl | hmem
        · left; exact List.mem_cons_self _ _
        · rcases ih key d e hmem with h | ⟨m, hm, h2⟩
          · left; exact List.mem_cons_of_mem _ h
          · right; exact ⟨m, List.mem_cons_of_mem _ hm, h2⟩

/-- Entries of the accumulator after `insertDup`: an untouched old entry, an
old entry of the anchor key with the detail appended, or the freshly seeded
entry of the anchor key holding just the detail. -/
theorem insertDup_mem (uids : Nat → String) (cm : DeduplicationColumnMap)
    (r1 : WorkRow) (dup : DuplicateRecordDetail) (st : MState)
    (e : Nat × MasterData) (he : e ∈ (insertDup uids cm r1 dup st).1) :
    e ∈ st.1 ∨
    (∃ m, (r1.ExcelRow + 2, m) ∈ st.1 ∧
      e = (r1.ExcelRow + 2, { m with Duplicates := m.Duplicates ++ [dup] })) ∨
    (∃ u, e = (r1.ExcelRow + 2,
      { mkMasterSeed cm r1 u with
          Duplicates := (mkMasterSeed cm r1 u).Duplicates ++ [dup] })) := by
  have he' : e ∈ appendDup
      (if (st.1.any fun e => e.1 == r1.ExcelRow + 2) = true then st
       else (st.1 ++ [(r1.ExcelRow + 2, mkMasterSeed cm r1 (uids st.2))], st.2 + 1)).1
      (r1.ExcelRow + 2) dup := he
  by_cases h : (st.1.any fun e => e.1 == r1.ExcelRow + 2) = true
  · rw [if_pos h] at he'
    rcases appendDup_mem st.1 _ dup e he' with h1 | ⟨m, hm, h2⟩
    · left; exact h1
    · right; left; exact ⟨m, hm, h2⟩
  · rw [if_neg h] at he'
    have h' : (st.1.any fun e => e.1 == r1.ExcelRow + 2) = false := Bool.eq_false_iff.mpr h
    rw [show (st.1 ++ [(r1.ExcelRow + 2, mkMasterSeed cm r1 (uids st.2))], st.2 + 1).1 =
      st.1 ++ [(r1.ExcelRow + 2, mkMasterSeed cm r1 (uids st.2))] from rfl] at he'
    rw [appendDup_append_of_not_mem st.1 _ _ dup h'] at he'
    rcases List.mem_append.mp he' with h1 | h2
    · left; exact h1
    · rcases List.mem_singleton.mp h2 with rfl
      right; right
      exact ⟨uids st.2, rfl⟩

/-- `insertDup` preserves the per-entry invariant, provided the inserted
detail satisfies it at the anchor key. -/
theorem insertDup_inv (Q : Nat → DuplicateRecordDetail → Prop)
    (uids : Nat → String) (cm : DeduplicationColumnMap) (r1 : WorkRow)
    (dup : DuplicateRecordDetail) (st : MState)
    (hdup : Q (r1.ExcelRow + 2) dup)
    (hst : ∀ e ∈ st.1, e.2.MasterRow = e.1 ∧ ∀ d ∈ e.2.Duplicates, Q e.1 d) :
    ∀ e ∈ (insertDup uids cm r1 dup st).1,
      e.2.MasterRow = e.1 ∧ ∀ d ∈ e.2.Duplicates, Q e.1 d := by
  intro e he
  rcases insertDup_mem uids cm r1 dup st e he with h | ⟨m, hm, rfl⟩ | ⟨u, rfl⟩
  · exact hst e h
  · obtain ⟨hmr, hdq⟩ := hst _ hm
    refine ⟨hmr, ?_⟩
    intro d hd
    rcases List.mem_append.mp hd with hdo | hdn
    · exact hdq d hdo
    · rcases List.mem_singleton.mp hdn with rfl
      exact hdup
  · refine ⟨rfl, ?_⟩
    intro d hd
    rcases List.mem_singleton.mp (by simpa [mkMasterSeed] using hd) with rfl
    exact hdup

/-- One evaluated pair preserves the per-entry invariant. -/
theorem processPair_inv (Q : Nat → DuplicateRecordDetail → Prop)
    (sim : String → String → Nat) (uids : Nat → String)
    (cm : DeduplicationColumnMap) (work : List WorkRow) (st : MState) (p : Nat × Nat)
    (hdup : ∀ u : String, Q ((work.getD p.1 default).ExcelRow + 2)
      (mkDup cm (work.getD p.2 default)
        (pairNameScore sim cm (work.getD p.1 default) (work.getD p.2 default))
        (pairAddrScore sim cm (work.getD p.1 default) (work.getD p.2 default))
        (pairOverall cm
          (pairNameScore sim cm (work.getD p.1 default) (work.getD p.2 default))
          (pairAddrScore sim cm (work.getD p.1 default) (work.getD p.2 default))) u))
    (hst : ∀ e ∈ st.1, e.2.MasterRow = e.1 ∧ ∀ d ∈ e.2.Duplicates, Q e.1 d) :
    ∀ e ∈ (processPair sim uids cm work st p).1,
      e.2.MasterRow = e.1 ∧ ∀ d ∈ e.2.Duplicates, Q e.1 d := by
  rcases processPair_eq sim uids cm work st p with h | h
  · rw [h]; exact hst
  · rw [h]
    exact insertDup_inv Q uids cm _ _ _ (hdup (uids st.2)) hst

/-- The whole evaluation fold preserves the per-entry invariant. -/
theorem foldl_processPair_inv (Q : Nat → DuplicateRecordDetail → Prop)
    (sim : String → String → Nat) (uids : Nat → String)
    (cm : DeduplicationColumnMap) (work : List WorkRow) :
    ∀ (pairs : List (Nat × Nat)) (st : MState),
    (∀ p ∈ pairs, ∀ u : String, Q ((work.getD p.1 default).ExcelRow + 2)
      (mkDup cm (work.getD p.2 default)
        (pairNameScore sim cm (work.getD p.1 default) (work.getD p.2 default))
        (pairAddrScore sim cm (work.getD p.1 default) (work.getD p.2 default))
        (pairOverall cm
          (pairNameScore sim cm (work.getD p.1 default) (work.getD p.2 default))
          (pairAddrScore sim cm (work.getD p.1 default) (work.getD p.2 default))) u)) →
    (∀ e ∈ st.1, e.2.MasterRow = e.1 ∧ ∀ d ∈ e.2.Duplicates, Q e.1 d) →
    ∀ e ∈ (pairs.foldl (processPair sim uids cm work) st).1,
      e.2.MasterRow = e.1 ∧ ∀ d ∈ e.2.Duplicates, Q e.1 d := by
  intro pairs
  induction pairs with
  | nil => intro st _ hst; exact hst
  | cons p pairs' ih =>
    intro st hQ hst
    rw [List.foldl_cons]
    exact ih _ (fun q hq => hQ q (List.mem_cons_of_mem p hq))
      (processPair_inv Q sim uids cm work st p (hQ p (List.mem_cons_self p pairs')) hst)

theorem mem_insertDesc : ∀ (l : List MasterRecord) (m x : MasterRecord),
    x ∈ insertDesc m l → x = m ∨ x ∈ l := by
  intro l
  induction l with
  | nil =>
    intro m x hx
    rcases List.mem_singleton.mp hx with rfl
    left; rfl
  | cons a l ih =>
    intro m x hx
    rw [insertDesc] at hx
    by_cases hc : a.AvgSimilarity < m.AvgSimilarity
    · rw [if_pos hc] at hx
      rcases List.mem_cons.mp hx with rfl | hx2
      · left; rfl
      · right; exact hx2
    · rw [if_neg hc] at hx
      rcases List.mem_cons.mp hx with rfl | hx2
      · right; exact List.mem_cons_self _ _
      · rcases ih m x hx2 with h | h
        · left; exact h
        · right; exact List.mem_cons_of_mem _ h

theorem mem_sortMasters : ∀ (l : List MasterRecord) (x : MasterRecord),
    x ∈ sortMasters l → x ∈ l := by
  intro l
  induction l with
  | nil => intro x hx; exact absurd hx (List.not_mem_nil x)
  | cons a l ih =>
    intro x hx
    rcases mem_insertDesc (sortMasters l) a x hx with rfl | h
    · exact List.mem_cons_self _ _
    · exact List.mem_cons_of_mem _ (ih x h)

/-- An `ok` result of the engine is the sorted finalization of the fold
state, paired with the block statistics. -/
theorem build_ok_shape (sim : String → String → Nat) (uids : Nat → String)
    (df : DataFrame) (cm : DeduplicationColumnMap)
    (ms : List MasterRecord) (bs : BlockStats)
    (h : build_duplicate_df sim uids df cm = .ok (ms, bs)) :
    ms = sortMasters (((engineState sim uids df cm).1.map (fun e => e.2)).map finalizeMaster) ∧
    bs = mkBlockStats (engineBlocks df cm) := by
  unfold build_duplicate_df at h
  cases hfind : (mappedCols cm).find? (fun c => !(df.cols.contains c)) with
  | some c =>
    rw [hfind] at h
    exact absurd h (by simp)
  | none =>
    rw [hfind] at h
    by_cases hsel : ((mappedCols cm).filter (fun c => df.cols.contains c)).isEmpty = true
    · rw [if_pos hsel] at h
      exact absurd h (by simp)
    · rw [if_neg hsel] at h
      exact ⟨(congrArg Prod.fst (Except.ok.inj h)).symm,
        (congrArg Prod.snd (Except.ok.inj h)).symm⟩

/-- Every returned master group is the finalization of one accumulator
entry. -/
theorem build_ok_masters (sim : String → String → Nat) (uids : Nat → String)
    (df : DataFrame) (cm : DeduplicationColumnMap)
    (ms : List MasterRecord) (bs : BlockStats)
    (h : build_duplicate_df sim uids df cm = .ok (ms, bs))
    (m : MasterRecord) (hm : m ∈ ms) :
    ∃ e ∈ (engineState sim uids df cm).1, m = finalizeMaster e.2 := by
  obtain ⟨hms, _⟩ := build_ok_shape sim uids df cm ms bs h
  rw [hms] at hm
  have hm2 := mem_sortMasters _ _ hm
  obtain ⟨md, hmd, rfl⟩ := List.mem_map.mp hm2
  obtain ⟨e, he, rfl⟩ := List.mem_map.mp hmd
  exact ⟨e, he, rfl⟩

theorem combinations2_mem : ∀ (l : List Nat) (p : Nat × Nat),
    p ∈ combinations2 l → p.1 ∈ l ∧ p.2 ∈ l := by
  intro l
  induction l with
  | nil => intro p hp; exact absurd hp (List.not_mem_nil p)
  | cons x xs ih =>
    intro p hp
    rw [combinations2] at hp
    rcases List.mem_append.mp hp with h | h
    · obtain ⟨y, hy, rfl⟩ := List.mem_map.mp h
      exact ⟨List.mem_cons_self _ _, List.mem_cons_of_mem _ hy⟩
    · obtain ⟨h1, h2⟩ := ih p h
      exact ⟨List.mem_cons_of_mem _ h1, List.mem_cons_of_mem _ h2⟩

theorem combinations2_pairwise {R : Nat → Nat → Prop} : ∀ (l : List Nat),
    l.Pairwise R → ∀ p ∈ combinations2 l, R p.1 p.2 := by
  intro l
  induction l with
  | nil => intro _ p hp; exact absurd hp (List.not_mem_nil p)
  | cons x xs ih =>
    intro hR p hp
    obtain ⟨hx, hxs⟩ := List.pairwise_cons.mp hR
    rw [combinations2] at hp
    rcases List.mem_append.mp hp with h | h
    · obtain ⟨y, hy, rfl⟩ := List.mem_map.mp h
      exact hx y hy
    · exact ih hxs p h

theorem allPairs_mem (blocks : List (String × List Nat)) (p : Nat × Nat)
    (hp : p ∈ allPairs blocks) : ∃ e ∈ blocks, p ∈ combinations2 e.2 := by
  unfold allPairs at hp
  obtain ⟨l, hl, hpl⟩ := List.mem_flatten.mp hp
  obtain ⟨e, he, heq⟩ := List.mem_map.mp hl
  refine ⟨e, he, ?_⟩
  rw [← heq] at hpl
  by_cases hlen : e.2.length < 2
  · rw [if_pos hlen] at hpl
    exact absurd hpl (List.not_mem_nil p)
  · rw [if_neg hlen] at hpl
    exact hpl

/-- Every pair the engine evaluates joins two valid positions of the same
block, listed in increasing order. -/
theorem allPairs_engine_facts (df : DataFrame) (cm : DeduplicationColumnMap)
    (p : Nat × Nat) (hp : p ∈ allPairs (engineBlocks df cm)) :
    p.1 < (engineWork df cm).length ∧ p.2 < (engineWork df cm).length ∧ p.1 < p.2 ∧
    blockKey cm ((engineWork df cm).getD p.1 default) =
      blockKey cm ((engineWork df cm).getD p.2 default) := by
  obtain ⟨e, he, hpc⟩ := allPairs_mem (engineBlocks df cm) p hp
  obtain ⟨hfacts, hpw⟩ := engineBlocks_inv df cm e he
  have hm := combinations2_mem e.2 p hpc
  have h1 := hfacts p.1 hm.1
  have h2 := hfacts p.2 hm.2
  have hlt := combinations2_pairwise e.2 hpw p hpc
  exact ⟨h1.1, h2.1, hlt, by rw [h1.2.2, h2.2.2]⟩

/-- C9: every returned duplicate detail is low-confidence exactly when its
overall score is below 90; in particular a detail scored 90 is not
low-confidence and one scored 89 is. -/
theorem c9_low_confidence_iff (sim : String → String → Nat) (uids : Nat → String)
    (df : DataFrame) (cm : DeduplicationColumnMap)
    (ms : List MasterRecord) (bs : BlockStats)
    (h : build_duplicate_df sim uids df cm = .ok (ms, bs))
    (m : MasterRecord) (hm : m ∈ ms)
    (d : DuplicateRecordDetail) (hd : d ∈ m.Duplicates) :
    (d.IsLowConfidence = true ↔ d.Overall_score < 90) := by
  obtain ⟨e, he, rfl⟩ := build_ok_masters sim uids df cm ms bs h m hm
  have hinv := foldl_processPair_inv
    (fun _ d => d.IsLowConfidence = decide (d.Overall_score < 90))
    sim uids cm (engineWork df cm) (allPairs (engineBlocks df cm)) ([], 0)
    (fun p _ u => rfl)
    (fun e he => absurd he (List.not_mem_nil e))
    e he
  have hd' : d ∈ e.2.Duplicates := hd
  have heq := hinv.2 d hd'
  rw [heq]
  exact decide_eq_true_iff

/-- C9, witness: the `dfW` run under the constant similarity 89 produces a
detail with overall score 89 that is low-confidence. -/
theorem c9_witness :
    build_duplicate_df sim89 uidsW dfW cmW = .ok ([mr89], bsW) ∧
    dup89.Overall_score = 89 ∧
    (dup89.IsLowConfidence = true ↔ dup89.Overall_score < 90) :=
  ⟨rfl, rfl,
   c9_low_confidence_iff sim89 uidsW dfW cmW [mr89] bsW rfl
     mr89 (List.mem_singleton.mpr rfl) dup89 (List.mem_singleton.mpr rfl)⟩

/-- C10: in every returned master group the anchor's display row number is
strictly below the display row number of each of its duplicates, because
within a block the anchor of an accepted pair is always the record with the
smaller original row index. -/
theorem c10_anchor_row_lt (sim : String → String → Nat) (uids : Nat → String)
    (df : DataFrame) (cm : DeduplicationColumnMap)
    (ms : List MasterRecord) (bs : BlockStats)
    (h : build_duplicate_df sim uids df cm = .ok (ms, bs))
    (m : MasterRecord) (hm : m ∈ ms)
    (d : DuplicateRecordDetail) (hd : d ∈ m.Duplicates) :
    m.MasterRow < d.Row := by
  obtain ⟨e, he, rfl⟩ := build_ok_masters sim uids df cm ms bs h m hm
  have hinv := foldl_processPair_inv (fun k d => k < d.Row)
    sim uids cm (engineWork df cm) (allPairs (engineBlocks df cm)) ([], 0)
    (fun p hp u => by
      have hf := allPairs_engine_facts df cm p hp
      show ((engineWork df cm).getD p.1 default).ExcelRow + 2 <
        ((engineWork df cm).getD p.2 default).ExcelRow + 2
      rw [work_getD_excelRow_at df cm p.1 hf.1, work_getD_excelRow_at df cm p.2 hf.2.1]
      omega)
    (fun e he => absurd he (List.not_mem_nil e))
    e he
  have hd' : d ∈ e.2.Duplicates := hd
  have h2 := hinv.2 d hd'
  show (finalizeMaster e.2).MasterRow < d.Row
  rw [show (finalizeMaster e.2).MasterRow = e.2.MasterRow from rfl, hinv.1]
  exact h2

/-- C10, witness: in the `dfW` run the anchor shows row 2 and its duplicate
row 3. -/
theorem c10_witness :
    build_duplicate_df simEq uidsW dfW cmW = .ok ([mrW], bsW) ∧ mrW.MasterRow < dupW.Row :=
  ⟨rfl, c10_anchor_row_lt simEq uidsW dfW cmW [mrW] bsW rfl
     mrW (List.mem_singleton.mpr rfl) dupW (List.mem_singleton.mpr rfl)⟩

/-- C7: the engine only ever scores pairs drawn from a single block (records
in different blocks are never compared), and consequently every returned
duplicate detail arises from two records sharing a block key: the anchor row
and the duplicate row both come from positions with equal block keys. -/
theorem c7_blocking_sound (sim : String → String → Nat) (uids : Nat → String)
    (df : DataFrame) (cm : DeduplicationColumnMap)
    (ms : List MasterRecord) (bs : BlockStats)
    (h : build_duplicate_df sim uids df cm = .ok (ms, bs)) :
    (∀ p ∈ allPairs (engineBlocks df cm),
      blockKey cm ((engineWork df cm).getD p.1 default) =
        blockKey cm ((engineWork df cm).getD p.2 default)) ∧
    (∀ m ∈ ms, ∀ d ∈ m.Duplicates, ∃ i j,
      i < (engineWork df cm).length ∧ j < (engineWork df cm).length ∧
      blockKey cm ((engineWork df cm).getD i default) =
        blockKey cm ((engineWork df cm).getD j default) ∧
      m.MasterRow = i + 2 ∧ d.Row = j + 2) := by
  constructor
  · intro p hp
    exact (allPairs_engine_facts df cm p hp).2.2.2
  · intro m hm d hd
    obtain ⟨e, he, rfl⟩ := build_ok_masters sim uids df cm ms bs h m hm
    have hinv := foldl_processPair_inv
      (fun k d => ∃ i j, i < (engineWork df cm).length ∧ j < (engineWork df cm).length ∧
        blockKey cm ((engineWork df cm).getD i default) =
          blockKey cm ((engineWork df cm).getD j default) ∧
        k = i + 2 ∧ d.Row = j + 2)
      sim uids cm (engineWork df cm) (allPairs (engineBlocks df cm)) ([], 0)
      (fun p hp u => by
        have hf := allPairs_engine_facts df cm p hp
        refine ⟨p.1, p.2, hf.1, hf.2.1, hf.2.2.2, ?_, ?_⟩
        · rw [work_getD_excelRow_at df cm p.1 hf.1]
        · show ((engineWork df cm).getD p.2 default).ExcelRow + 2 = p.2 + 2
          rw [work_getD_excelRow_at df cm p.2 hf.2.1])
      (fun e he => absurd he (List.not_mem_nil e))
      e he
    have hd' : d ∈ e.2.Duplicates := hd
    obtain ⟨i, j, hi, hj, hkey, hik, hjr⟩ := hinv.2 d hd'
    refine ⟨i, j, hi, hj, hkey, ?_, hjr⟩
    rw [show (finalizeMaster e.2).MasterRow = e.2.MasterRow from rfl, hinv.1]
    exact hik

/-- C7, witness: in the `dfW` run the single returned detail comes from two
positions with equal block keys. -/
theorem c7_witness :
    build_duplicate_df simEq uidsW dfW cmW = .ok ([mrW], bsW) ∧
    (∃ i j, i < (engineWork dfW cmW).length ∧ j < (engineWork dfW cmW).length ∧
      blockKey cmW ((engineWork dfW cmW).getD i default) =
        blockKey cmW ((engineWork dfW cmW).getD j default) ∧
      mrW.MasterRow = i + 2 ∧ dupW.Row = j + 2) :=
  ⟨rfl, (c7_blocking_sound simEq uidsW dfW cmW [mrW] bsW rfl).2
     mrW (List.mem_singleton.mpr rfl) dupW (List.mem_singleton.mpr rfl)⟩

theorem insertDesc_sorted (m : MasterRecord) :
    ∀ (l : List MasterRecord),
    l.Pairwise (fun a b => b.AvgSimilarity ≤ a.AvgSimilarity) →
    (insertDesc m l).Pairwise (fun a b => b.AvgSimilarity ≤ a.AvgSimilarity) := by
  intro l
  induction l with
  | nil => intro _; exact List.pairwise_singleton _ _
  | cons x xs ih =>
    intro hl
    obtain ⟨hx, hxs⟩ := List.pairwise_cons.mp hl
    rw [insertDesc]
    by_cases hc : x.AvgSimilarity < m.AvgSimilarity
    · rw [if_pos hc]
      rw [List.pairwise_cons]
      refine ⟨?_, hl⟩
      intro y hy
      rcases List.mem_cons.mp hy with rfl | hy2
      · omega
      · have := hx y hy2
        omega
    · rw [if_neg hc]
      rw [List.pairwise_cons]
      refine ⟨?_, ih hxs⟩
      intro y hy
      rcases mem_insertDesc xs m y hy with rfl | hy2
      · omega
      · exact hx y hy2

theorem sortMasters_sorted : ∀ (l : List MasterRecord),
    (sortMasters l).Pairwise (fun a b => b.AvgSimilarity ≤ a.AvgSimilarity) := by
  intro l
  induction l with
  | nil => exact List.Pairwise.nil
  | cons a l ih => exact insertDesc_sorted a (sortMasters l) ih

/-- C8: every returned master group carries `DuplicateCount` equal to the
length of its duplicate list, `AvgSimilarity` equal to the rounded mean of
its duplicates' overall scores, and the group low-confidence flag exactly
when some duplicate is low-confidence; and the returned sequence is sorted by
`AvgSimilarity` in descending order. -/
theorem c8_groups_finalized_sorted (sim : String → String → Nat)
    (uids : Nat → String) (df : DataFrame) (cm : DeduplicationColumnMap)
    (ms : List MasterRecord) (bs : BlockStats)
    (h : build_duplicate_df sim uids df cm = .ok (ms, bs)) :
    (∀ m ∈ ms, m.DuplicateCount = m.Duplicates.length ∧
      m.AvgSimilarity = avgScore (m.Duplicates.map (fun d => d.Overall_score)) ∧
      (m.IsLowConfidenceGroup = true ↔ ∃ d ∈ m.Duplicates, d.IsLowConfidence = true)) ∧
    ms.Pairwise (fun a b => b.AvgSimilarity ≤ a.AvgSimilarity) := by
  obtain ⟨hms, _⟩ := build_ok_shape sim uids df cm ms bs h
  constructor
  · intro m hm
    obtain ⟨e, he, rfl⟩ := build_ok_masters sim uids df cm ms bs h m hm
    refine ⟨rfl, rfl, ?_⟩
    show e.2.Duplicates.any (fun d => d.IsLowConfidence) = true ↔
      ∃ d ∈ e.2.Duplicates, d.IsLowConfidence = true
    exact List.any_eq_true
  · rw [hms]
    exact sortMasters_sorted _

/-- C8, witness: the finalized fields and the (singleton) ordering on the
`dfW` run. -/
theorem c8_witness :
    build_duplicate_df simEq uidsW dfW cmW = .ok ([mrW], bsW) ∧
    mrW.DuplicateCount = mrW.Duplicates.length ∧
    mrW.AvgSimilarity = avgScore (mrW.Duplicates.map (fun d => d.Overall_score)) ∧
    (mrW.IsLowConfidenceGroup = true ↔ ∃ d ∈ mrW.Duplicates, d.IsLowConfidence = true) ∧
    ([mrW] : List MasterRecord).Pairwise (fun a b => b.AvgSimilarity ≤ a.AvgSimilarity) :=
  ⟨rfl,
   ((c8_groups_finalized_sorted simEq uidsW dfW cmW [mrW] bsW rfl).1
     mrW (List.mem_singleton.mpr rfl)).1,
   ((c8_groups_finalized_sorted simEq uidsW dfW cmW [mrW] bsW rfl).1
     mrW (List.mem_singleton.mpr rfl)).2.1,
   ((c8_groups_finalized_sorted simEq uidsW dfW cmW [mrW] bsW rfl).1
     mrW (List.mem_singleton.mpr rfl)).2.2,
   (c8_groups_finalized_sorted simEq uidsW dfW cmW [mrW] bsW rfl).2⟩

/-! ### Identifier-blindness of everything except the `uid` fields -/

theorem any_key_of_erase (ms1 ms2 : List (Nat × MasterData)) (key : Nat)
    (h : ms1.map eraseEntryUid = ms2.map eraseEntryUid) :
    ms1.any (fun e => e.1 == key) = ms2.any (fun e => e.1 == key) := by
  have h1 : ∀ ms : List (Nat × MasterData),
      ms.any (fun e => e.1 == key) = (ms.map eraseEntryUid).any (fun e => e.1 == key) := by
    intro ms
    rw [List.any_map]
    rfl
  rw [h1 ms1, h1 ms2, h]

theorem appendDup_erase : ∀ (ms1 ms2 : List (Nat × MasterData)) (key : Nat)
    (d1 d2 : DuplicateRecordDetail),
    ms1.map eraseEntryUid = ms2.map eraseEntryUid →
    eraseDupUid d1 = eraseDupUid d2 →
    (appendDup ms1 key d1).map eraseEntryUid =
      (appendDup ms2 key d2).map eraseEntryUid := by
  intro ms1
  induction ms1 with
  | nil =>
    intro ms2 key d1 d2 hm hd
    cases ms2 with
    | nil => rfl
    | cons e2 t2 => simp at hm
  | cons e1 t1 ih =>
    intro ms2 key d1 d2 hm hd
    cases ms2 with
    | nil => simp at hm
    | cons e2 t2 =>
      rw [List.map_cons, List.map_cons, List.cons.injEq] at hm
      obtain ⟨hh, ht⟩ := hm
      match e1, e2 with
      | (k1, m1), (k2, m2) =>
        simp only [eraseEntryUid, Prod.mk.injEq] at hh
        obtain ⟨hk, hmd⟩ := hh
        have hk' : k1 = k2 := hk
        subst hk'
        by_cases hkey : k1 == key
        · rw [appendDup, if_pos hkey, appendDup, if_pos hkey]
          rw [List.map_cons, List.map_cons, ht]
          congr 1
          simp only [eraseEntryUid, Prod.mk.injEq]
          refine ⟨trivial, ?_⟩
          simp only [eraseMDUid, MasterData.mk.injEq, List.map_append] at hmd ⊢
          obtain ⟨h1, h2, h3, h4, _⟩ := hmd
          refine ⟨h1, h2, h3, ?_, trivial⟩
          rw [h4]
          simp only [List.map_cons, List.map_nil, hd]
        · rw [appendDup, if_neg hkey, appendDup, if_neg hkey]
          rw [List.map_cons, List.map_cons, ih t2 key d1 d2 ht hd]
          congr 1
          simp only [eraseEntryUid, Prod.mk.injEq]
          exact ⟨trivial, hmd⟩

theorem insertDup_erase (f g : Nat → String) (cm : DeduplicationColumnMap)
    (r1 : WorkRow) (d1 d2 : DuplicateRecordDetail) (st1 st2 : MState)
    (hm : st1.1.map eraseEntryUid = st2.1.map eraseEntryUid)
    (hd : eraseDupUid d1 = eraseDupUid d2) :
    (insertDup f cm r1 d1 st1).1.map eraseEntryUid =
      (insertDup g cm r1 d2 st2).1.map eraseEntryUid := by
  have hany := any_key_of_erase st1.1 st2.1 (r1.ExcelRow + 2) hm
  show (appendDup
      (if (st1.1.any fun e => e.1 == r1.ExcelRow + 2) = true then st1
       else (st1.1 ++ [(r1.ExcelRow + 2, mkMasterSeed cm r1 (f st1.2))], st1.2 + 1)).1
      (r1.ExcelRow + 2) d1).map eraseEntryUid =
    (appendDup
      (if (st2.1.any fun e => e.1 == r1.ExcelRow + 2) = true then st2
       else (st2.1 ++ [(r1.ExcelRow + 2, mkMasterSeed cm r1 (g st2.2))], st2.2 + 1)).1
      (r1.ExcelRow + 2) d2).map eraseEntryUid
  by_cases h : (st1.1.any fun e => e.1 == r1.ExcelRow + 2) = true
  · rw [if_pos h, if_pos (by rw [← hany]; exact h)]
    exact appendDup_erase st1.1 st2.1 _ d1 d2 hm hd
  · rw [if_neg h, if_neg (by rw [← hany]; exact h)]
    refine appendDup_erase _ _ _ d1 d2 ?_ hd
    show (st1.1 ++ [(r1.ExcelRow + 2, mkMasterSeed cm r1 (f st1.2))]).map eraseEntryUid =
      (st2.1 ++ [(r1.ExcelRow + 2, mkMasterSeed cm r1 (g st2.2))]).map eraseEntryUid
    rw [List.map_append, List.map_append, hm]
    rfl

theorem processPair_erase (sim : String → String → Nat) (f g : Nat → String)
    (cm : DeduplicationColumnMap) (work : List WorkRow) (st1 st2 : MState)
    (p : Nat × Nat)
    (hm : st1.1.map eraseEntryUid = st2.1.map eraseEntryUid) :
    (processPair sim f cm work st1 p).1.map eraseEntryUid =
      (processPair sim g cm work st2 p).1.map eraseEntryUid := by
  rw [processPair_def, processPair_def]
  by_cases h1 : (pyTruthy cm.customer_name && decide
      (pairNameScore sim cm (work.getD p.1 default) (work.getD p.2 default) < 70)) = true
  · rw [if_pos h1, if_pos h1]; exact hm
  · rw [if_neg h1, if_neg h1]
    by_cases h2 : pairOverall cm
        (pairNameScore sim cm (work.getD p.1 default) (work.getD p.2 default))
        (pairAddrScore sim cm (work.getD p.1 default) (work.getD p.2 default)) < 70
    · rw [if_pos h2, if_pos h2]; exact hm
    · rw [if_neg h2, if_neg h2]
      exact insertDup_erase f g cm _ _ _ (st1.1, st1.2 + 1) (st2.1, st2.2 + 1) hm rfl

theorem foldl_processPair_erase (sim : String → String → Nat) (f g : Nat → String)
    (cm : DeduplicationColumnMap) (work : List WorkRow) :
    ∀ (pairs : List (Nat × Nat)) (st1 st2 : MState),
    st1.1.map eraseEntryUid = st2.1.map eraseEntryUid →
    (pairs.foldl (processPair sim f cm work) st1).1.map eraseEntryUid =
      (pairs.foldl (processPair sim g cm work) st2).1.map eraseEntryUid := by
  intro pairs
  induction pairs with
  | nil => intro st1 st2 hm; exact hm
  | cons p pairs' ih =>
    intro st1 st2 hm
    rw [List.foldl_cons, List.foldl_cons]
    exact ih _ _ (processPair_erase sim f g cm work st1 st2 p hm)

theorem finalize_erase (m1 m2 : MasterData) (h : eraseMDUid m1 = eraseMDUid m2) :
    eraseMRUid (finalizeMaster m1) = eraseMRUid (finalizeMaster m2) := by
  simp only [eraseMDUid, MasterData.mk.injEq] at h
  obtain ⟨h1, h2, h3, h4, _⟩ := h
  have hlen : m1.Duplicates.length = m2.Duplicates.length := by
    have := congrArg List.length h4
    simpa using this
  have hov : m1.Duplicates.map (fun d => d.Overall_score) =
      m2.Duplicates.map (fun d => d.Overall_score) := by
    have h5 := congrArg (List.map (fun d => d.Overall_score)) h4
    rw [List.map_map, List.map_map] at h5
    exact h5
  have hany : m1.Duplicates.any (fun d => d.IsLowConfidence) =
      m2.Duplicates.any (fun d => d.IsLowConfidence) := by
    have h5 : (List.map eraseDupUid m1.Duplicates).any (fun d => d.IsLowConfidence) =
        (List.map eraseDupUid m2.Duplicates).any (fun d => d.IsLowConfidence) :=
      congrArg (fun l => l.any (fun d => d.IsLowConfidence)) h4
    rw [List.any_map, List.any_map] at h5
    exact h5
  simp only [eraseMRUid, finalizeMaster, MasterRecord.mk.injEq]
  exact ⟨h1, h2, h3, hlen, by rw [hov], hany, h4, trivial⟩

theorem map_finalize_erase : ∀ (ms1 ms2 : List (Nat × MasterData)),
    ms1.map eraseEntryUid = ms2.map eraseEntryUid →
    ((ms1.map (fun e => e.2)).map finalizeMaster).map eraseMRUid =
      ((ms2.map (fun e => e.2)).map finalizeMaster).map eraseMRUid := by
  intro ms1
  induction ms1 with
  | nil =>
    intro ms2 hm
    cases ms2 with
    | nil => rfl
    | cons e2 t2 => simp at hm
  | cons e1 t1 ih =>
    intro ms2 hm
    cases ms2 with
    | nil => simp at hm
    | cons e2 t2 =>
      rw [List.map_cons, List.map_cons, List.cons.injEq] at hm
      obtain ⟨hh, ht⟩ := hm
      have hmd : eraseMDUid e1.2 = eraseMDUid e2.2 := by
        have h5 := congrArg Prod.snd hh
        exact h5
      simp only [List.map_cons]
      rw [finalize_erase e1.2 e2.2 hmd, ih t2 ht]

theorem insertDesc_erase : ∀ (l1 l2 : List MasterRecord) (m1 m2 : MasterRecord),
    l1.map eraseMRUid = l2.map eraseMRUid → eraseMRUid m1 = eraseMRUid m2 →
    (insertDesc m1 l1).map eraseMRUid = (insertDesc m2 l2).map eraseMRUid := by
  intro l1
  induction l1 with
  | nil =>
    intro l2 m1 m2 hl hm
    cases l2 with
    | nil => simp [insertDesc, hm]
    | cons x2 t2 => simp at hl
  | cons x1 t1 ih =>
    intro l2 m1 m2 hl hm
    cases l2 with
    | nil => simp at hl
    | cons x2 t2 =>
      rw [List.map_cons, List.map_cons, List.cons.injEq] at hl
      obtain ⟨hx, ht⟩ := hl
      have havg : x1.AvgSimilarity = x2.AvgSimilarity := by
        have h5 := congrArg MasterRecord.AvgSimilarity hx
        exact h5
      have hmavg : m1.AvgSimilarity = m2.AvgSimilarity := by
        have h5 := congrArg MasterRecord.AvgSimilarity hm
        exact h5
      rw [insertDesc, insertDesc]
      by_cases hc : x1.AvgSimilarity < m1.AvgSimilarity
      · rw [if_pos hc, if_pos (by rw [← havg, ← hmavg]; exact hc)]
        rw [List.map_cons, List.map_cons, List.map_cons, List.map_cons, hm, hx, ht]
      · rw [if_neg hc, if_neg (by rw [← havg, ← hmavg]; exact hc)]
        rw [List.map_cons, List.map_cons, hx, ih t2 m1 m2 ht hm]

theorem sortMasters_erase : ∀ (l1 l2 : List MasterRecord),
    l1.map eraseMRUid = l2.map eraseMRUid →
    (sortMasters l1).map eraseMRUid = (sortMasters l2).map eraseMRUid := by
  intro l1
  induction l1 with
  | nil =>
    intro l2 h
    cases l2 with
    | nil => rfl
    | cons x2 t2 => simp at h
  | cons x1 t1 ih =>
    intro l2 h
    cases l2 with
    | nil => simp at h
    | cons x2 t2 =>
      rw [List.map_cons, List.map_cons, List.cons.injEq] at h
      obtain ⟨hx, ht⟩ := h
      show (insertDesc x1 (sortMasters t1)).map eraseMRUid =
        (insertDesc x2 (sortMasters t2)).map eraseMRUid
      exact insertDesc_erase _ _ x1 x2 (ih t2 ht) hx

/-- C1, amended: the engine is a pure function of table, mapping and injected
similarity in every field except the freshly drawn `uid`/`master_uid`
identifiers: with those erased, the results of two invocations drawing from
arbitrary (different) identifier streams are identical, errors included. -/
theorem c1_deterministic_up_to_uids (sim : String → String → Nat)
    (f g : Nat → String) (df : DataFrame) (cm : DeduplicationColumnMap) :
    eraseResultUids (build_duplicate_df sim f df cm) =
      eraseResultUids (build_duplicate_df sim g df cm) := by
  unfold build_duplicate_df
  cases hfind : (mappedCols cm).find? (fun c => !(df.cols.contains c)) with
  | some c => rfl
  | none =>
    by_cases hsel : ((mappedCols cm).filter (fun c => df.cols.contains c)).isEmpty = true
    · simp only [if_pos hsel]
    · simp only [if_neg hsel]
      have hfold := foldl_processPair_erase sim f g cm
        (buildWork df cm ((mappedCols cm).filter (fun c => df.cols.contains c)))
        (allPairs (buildBlocks cm
          (buildWork df cm ((mappedCols cm).filter (fun c => df.cols.contains c)))))
        ([], 0) ([], 0) rfl
      have hsort := sortMasters_erase _ _ (map_finalize_erase _ _ hfold)
      show Except.ok ((sortMasters _).map eraseMRUid, _) =
        Except.ok ((sortMasters _).map eraseMRUid, _)
      rw [hsort]

/-- C1, counterexample: two invocations on identical `(table, mapping)`
drawing different fresh identifiers differ in the returned `uid` and
`master_uid` fields, so the output is not identical in every field. -/
theorem c1_counterexample :
    build_duplicate_df simEq uidsW dfW cmW ≠ build_duplicate_df simEq uidsB dfW cmW := by
  decide

end DataCleanse
